import Mathlib

/-!
# Verification of the DupeNuke near-duplicate image detection pipeline

Shallow embedding of `src/detect.py` (the detection core) and of the
interface between `src/app.py` and the core.

Modelling conventions:
* An image signature (`imagehash.dhash(...).hash.flatten()`) is a numpy
  boolean vector of length `hash_size²`; we model it as `List Bool`.
* `np.packbits` / `np.unpackbits` are modelled bit-for-bit (big-endian bit
  order inside a byte, zero padding up to a byte boundary), with bytes as
  natural numbers below 256.
* Python float division in `similarity = (hash_size**2 - hd) / hash_size**2`
  is modelled by exact rational division (`ℚ`); likewise the threshold is a
  rational number.
* `int(hash_size**2/bands)` is truncating division of non-negative integers,
  modelled by natural-number division.  `bands = 0` raises
  `ZeroDivisionError` in Python and is outside the modelled domain.
* The outcome of decoding one file (`calculate_signature`, which raises
  `IOError` on a non-image file) is modelled as `Option (List Bool)`:
  a directory is presented to the pipeline as a list of
  `(path, decode outcome)` entries in listing order.
* Python dicts are modelled by insertion-ordered structures
  (`signatures` as an association list, each band's bucket dict as a key
  list plus a total content function, the union-find `parent` dict as a key
  list plus a total parent function that is the identity off the key list).
* `list.sort` / `sorted` (Timsort) are stable sorts; any two stable sorts
  under the same key agree pointwise, so we model them with a stable
  insertion sort.
* Iteration order over the Python `set` `candidate_pairs` is unspecified
  (string hashing is randomized per process); `find_near_duplicates` below
  fixes one admissible enumeration (first-traversal order of the buckets,
  deduplicated), and `scorePairs` exposes the scoring stage for an
  arbitrary enumeration.
-/

/-- An image signature: the flattened boolean dhash vector. -/
abbrev Sig := List Bool

/-! ## np.packbits / np.unpackbits -/

/-- One byte from (up to) 8 bits, most significant bit first
(numpy `packbits` bit order). -/
def bitsToByte (c : List Bool) : ℕ :=
  c.foldl (fun acc b => 2 * acc + cond b 1 0) 0

/-- Split a bit list into consecutive chunks of 8. -/
def chunk8 : List Bool → List (List Bool)
  | [] => []
  | x :: xs => (x :: xs.take 7) :: chunk8 (xs.drop 7)
termination_by l => l.length
decreasing_by simp [List.length_drop]; omega

/-- Zero padding up to the next byte boundary, as `np.packbits` performs. -/
def pad8 (l : List Bool) : List Bool :=
  l ++ List.replicate ((8 - l.length % 8) % 8) false

/-- `np.packbits` on a boolean vector: zero-pad to a byte boundary and pack
each group of 8 bits into one byte, most significant bit first. -/
def packbits (l : List Bool) : List ℕ :=
  (chunk8 (pad8 l)).map bitsToByte

/-- The 8 bits of a byte, most significant first (numpy `unpackbits`). -/
def byteToBits (n : ℕ) : List Bool :=
  [n.testBit 7, n.testBit 6, n.testBit 5, n.testBit 4,
   n.testBit 3, n.testBit 2, n.testBit 1, n.testBit 0]

/-- `np.unpackbits` on a byte vector. -/
def unpackbits (bs : List ℕ) : List Bool :=
  (bs.map byteToBits).flatten

/-- `np.bitwise_xor(u, v).sum()` on equal-length boolean vectors: the number
of positions where the two vectors differ. -/
def xorCount (a b : List Bool) : ℕ :=
  ((a.zip b).map (fun p => if p.1 = p.2 then 0 else 1)).sum

/-! ## Stable sort (`list.sort` / `sorted`) -/

/-- Insert an element into a sorted list, before the first element it
compares `le` to: the stable insertion step. -/
def insertS (le : α → α → Bool) (x : α) : List α → List α
  | [] => [x]
  | y :: ys => if le x y then x :: y :: ys else y :: insertS le x ys

/-- Stable insertion sort.  All stable sorts for the same total preorder
agree, so this models Python's (stable) `list.sort` / `sorted`. -/
def stableSort (le : α → α → Bool) : List α → List α
  | [] => []
  | x :: xs => insertS le x (stableSort le xs)

/-! ## The detection pipeline state (`find_near_duplicates` in detect.py) -/

/-- One band's bucket dict `hash_buckets_list[i]`:
`keys` records the dict's keys in insertion order, `val` the bucket list for
each key (`[]` for keys not present).  A bucket key is the byte string
`signature_band.tobytes()` of a boolean slice, one byte per bit, so distinct
keys correspond exactly to distinct slices: we use the slice itself. -/
structure BandMap where
  keys : List Sig
  val : Sig → List String

/-- `dict[key].append(p)`, creating the entry first when absent
(`if signature_band_bytes not in hash_buckets_list[i]: ... = list()`). -/
def bandInsert (b : BandMap) (k : Sig) (p : String) : BandMap :=
  { keys := if k ∈ b.keys then b.keys else b.keys ++ [k]
    val := fun k' => if k' = k then b.val k ++ [p] else b.val k' }

/-- The mutable state of the file loop in `find_near_duplicates`:
the `signatures` dict (path ↦ packed signature, insertion order) and the
per-band bucket dicts. -/
structure DetectState where
  signatures : List (String × List ℕ)
  buckets : List BandMap

/-- The slice `signature[i*rows:(i+1)*rows]`. -/
def bandSlice (sig : Sig) (rows i : ℕ) : Sig :=
  (sig.drop (i * rows)).take rows

/-- One iteration of the file loop: a file that failed to decode is skipped
(`except IOError: continue`); a decoded one is recorded in `signatures`
(packed) and appended to its bucket in every band. -/
def processFile (rows bands : ℕ) (st : DetectState) (f : String × Option Sig) :
    DetectState :=
  match f.2 with
  | none => st
  | some sig =>
    { signatures := st.signatures ++ [(f.1, packbits sig)]
      buckets := List.zipWith
        (fun i b => bandInsert b (bandSlice sig rows i) f.1)
        (List.range bands) st.buckets }

/-- The state after the whole file loop. -/
def buildState (files : List (String × Option Sig)) (hash_size bands : ℕ) :
    DetectState :=
  files.foldl (processFile (hash_size ^ 2 / bands) bands)
    ⟨[], List.replicate bands (⟨[], fun _ => []⟩ : BandMap)⟩

/-- The nested loop `for i in range(len(b)): for j in range(i+1, len(b))`:
each element paired with every later element. -/
def allPairs : List α → List (α × α)
  | [] => []
  | x :: xs => xs.map (fun y => (x, y)) ++ allPairs xs

/-- String comparison as a Bool (for the stable sort). -/
def strLe (a b : String) : Bool := a ≤ b

/-- Candidate pairs contributed by one band: every bucket with more than one
member is sorted lexicographically and all its ordered-index pairs emitted. -/
def bandPairs (b : BandMap) : List (String × String) :=
  b.keys.flatMap (fun k =>
    let bucket := b.val k
    if bucket.length > 1 then allPairs (stableSort strLe bucket) else [])

/-- All candidate pairs in traversal order (bands, then keys, then index
pairs), possibly with repeats across bands: the elements added to the Python
set `candidate_pairs`. -/
def candidateList (st : DetectState) : List (String × String) :=
  st.buckets.flatMap bandPairs

/-- `signatures[p]` (dict lookup). -/
def dictLookup (p : String) : List (String × α) → Option α
  | [] => none
  | (k, v) :: rest => if k = p then some v else dictLookup p rest

/-- The similarity the code computes for a candidate pair: unpack the two
packed signatures, XOR them, count set bits, and normalize by
`L = hash_size²`. -/
def similarity (sigs : List (String × List ℕ)) (L : ℕ) (a b : String) : ℚ :=
  let ha := unpackbits ((dictLookup a sigs).getD [])
  let hb := unpackbits ((dictLookup b sigs).getD [])
  ((L : ℚ) - xorCount ha hb) / (L : ℚ)

/-- Comparison used by `near_duplicates.sort(key=lambda x: x[2], reverse=True)`:
keyed on the similarity component only, descending. -/
def simGe (x y : String × String × ℚ) : Bool := y.2.2 ≤ x.2.2

/-- The scoring stage on one enumeration of the candidate-pair set: keep a
pair exactly when its similarity strictly exceeds the threshold, then
stable-sort by descending similarity. -/
def scorePairs (sigs : List (String × List ℕ)) (L : ℕ) (threshold : ℚ)
    (pairs : List (String × String)) : List (String × String × ℚ) :=
  stableSort simGe
    (pairs.filterMap (fun p =>
      let s := similarity sigs L p.1 p.2
      if threshold < s then some (p.1, p.2, s) else none))

/-- `find_near_duplicates` on the decode outcomes of a directory listing.
The candidate set is enumerated in first-traversal order with duplicates
removed (one admissible iteration order of the Python set). -/
def find_near_duplicates (files : List (String × Option Sig))
    (threshold : ℚ) (hash_size bands : ℕ) : List (String × String × ℚ) :=
  let st := buildState files hash_size bands
  scorePairs st.signatures (hash_size ^ 2) threshold (candidateList st).dedup

/-! ## Interface between app.py and detect.py -/

/-- The parameters of `find_near_duplicates` as declared in detect.py:
`def find_near_duplicates(input_dir, threshold, hash_size, bands)`. -/
def findNearDuplicatesParams : List String :=
  ["input_dir", "threshold", "hash_size", "bands"]

/-- The keyword argument `MyGUI.process_folder` (app.py) passes in
`detect.find_near_duplicates(self.selected_path, 0.7, 16, 16,
include_SubFolders=self.include_subfolders.get())`. -/
def processFolderKeyword : String := "include_SubFolders"

/-- Python call semantics: a keyword argument is accepted exactly when it
names a declared parameter; otherwise the call raises `TypeError` before the
function body runs. -/
def callAccepted (params : List String) (kw : String) : Bool :=
  params.contains kw

/-! ## Bit-packing lemmas -/

theorem byteToBits_bitsToByte : ∀ b0 b1 b2 b3 b4 b5 b6 b7 : Bool,
    byteToBits (bitsToByte [b0, b1, b2, b3, b4, b5, b6, b7]) =
      [b0, b1, b2, b3, b4, b5, b6, b7] := by
  decide

theorem byteToBits_bitsToByte_of_len (c : List Bool) (h : c.length = 8) :
    byteToBits (bitsToByte c) = c := by
  match c with
  | [b0, b1, b2, b3, b4, b5, b6, b7] => exact byteToBits_bitsToByte b0 b1 b2 b3 b4 b5 b6 b7
  | [] | [_] | [_, _] | [_, _, _] | [_, _, _, _] | [_, _, _, _, _]
  | [_, _, _, _, _, _] | [_, _, _, _, _, _, _] => simp at h
  | _ :: _ :: _ :: _ :: _ :: _ :: _ :: _ :: _ :: _ => simp at h

theorem chunk8_flatten (l : List Bool) : (chunk8 l).flatten = l := by
  induction l using chunk8.induct with
  | case1 => simp [chunk8]
  | case2 x xs ih =>
    rw [chunk8]
    simp only [List.flatten_cons, ih]
    simp

theorem chunk8_length (l : List Bool) (h : l.length % 8 = 0) :
    ∀ c ∈ chunk8 l, c.length = 8 := by
  induction l using chunk8.induct with
  | case1 => intro c hc; simp [chunk8] at hc
  | case2 x xs ih =>
    intro c hc
    rw [chunk8] at hc
    simp only [List.mem_cons] at hc
    rcases hc with hc | hc
    · subst hc
      simp only [List.length_cons, List.length_take]
      simp only [List.length_cons] at h
      omega
    · refine ih ?_ c hc
      simp only [List.length_drop]
      simp only [List.length_cons] at h
      omega

theorem pad8_length (l : List Bool) : (pad8 l).length % 8 = 0 := by
  simp only [pad8, List.length_append, List.length_replicate]
  omega

theorem unpackbits_packbits (l : List Bool) :
    unpackbits (packbits l) = pad8 l := by
  unfold unpackbits packbits
  rw [List.map_map]
  have h : ∀ c ∈ chunk8 (pad8 l), (byteToBits ∘ bitsToByte) c = id c := by
    intro c hc
    exact byteToBits_bitsToByte_of_len c (chunk8_length _ (pad8_length l) c hc)
  rw [List.map_congr_left h]
  simp [chunk8_flatten]

theorem xorCount_cons (x y : Bool) (xs ys : List Bool) :
    xorCount (x :: xs) (y :: ys) = (if x = y then 0 else 1) + xorCount xs ys := by
  simp [xorCount, List.zip_cons_cons]

theorem xorCount_append (a b a' b' : List Bool) (h : a.length = b.length) :
    xorCount (a ++ a') (b ++ b') = xorCount a b + xorCount a' b' := by
  unfold xorCount
  rw [List.zip_append h]
  simp

theorem xorCount_replicate_false (k : ℕ) :
    xorCount (List.replicate k false) (List.replicate k false) = 0 := by
  induction k with
  | zero => rfl
  | succ n ih => simp [List.replicate_succ, xorCount_cons, ih]

theorem xorCount_pad8 (a b : List Bool) (h : a.length = b.length) :
    xorCount (pad8 a) (pad8 b) = xorCount a b := by
  unfold pad8
  rw [h, xorCount_append a b _ _ h, xorCount_replicate_false]
  simp

theorem xorCount_le_length (a b : List Bool) : xorCount a b ≤ a.length := by
  induction a generalizing b with
  | nil => simp [xorCount]
  | cons x xs ih =>
    cases b with
    | nil => simp [xorCount]
    | cons y ys =>
      rw [xorCount_cons]
      have := ih ys
      simp only [List.length_cons]
      split <;> omega

theorem xorCount_self (a : List Bool) : xorCount a a = 0 := by
  induction a with
  | nil => rfl
  | cons x xs ih => simp [xorCount_cons, ih]

theorem xorCount_nil_left (v : List Bool) : xorCount [] v = 0 := rfl

theorem xorCount_nil_right (v : List Bool) : xorCount v [] = 0 := by
  simp [xorCount]

/-! ## Characterizing the file loop -/

/-- The successfully decoded files, in listing order. -/
def decoded (files : List (String × Option Sig)) : List (String × Sig) :=
  files.filterMap (fun f => f.2.map (fun s => (f.1, s)))

/-- Per-band recomputation of a bucket dict over the decoded files. -/
def bandFor (files : List (String × Option Sig)) (rows i : ℕ) : BandMap :=
  (decoded files).foldl (fun b d => bandInsert b (bandSlice d.2 rows i) d.1)
    ⟨[], fun _ => []⟩

theorem decoded_append (files files' : List (String × Option Sig)) :
    decoded (files ++ files') = decoded files ++ decoded files' := by
  simp [decoded]

theorem buildState_signatures (files : List (String × Option Sig))
    (hash_size bands : ℕ) :
    (buildState files hash_size bands).signatures =
      (decoded files).map (fun d => (d.1, packbits d.2)) := by
  induction files using List.reverseRecOn with
  | nil => rfl
  | append_singleton fs f ih =>
    unfold buildState at ih ⊢
    rw [List.foldl_append, decoded_append]
    rcases f with ⟨p, s?⟩
    cases s? with
    | none => simpa [processFile, decoded] using ih
    | some s => simp [processFile, decoded, ih]

theorem processFile_none (rows bands : ℕ) (st : DetectState) (p : String) :
    processFile rows bands st (p, none) = st := rfl

theorem processFile_some (rows bands : ℕ) (st : DetectState) (p : String)
    (sig : Sig) :
    processFile rows bands st (p, some sig) =
      { signatures := st.signatures ++ [(p, packbits sig)]
        buckets := List.zipWith
          (fun i b => bandInsert b (bandSlice sig rows i) p)
          (List.range bands) st.buckets } := rfl

theorem buildState_buckets (files : List (String × Option Sig))
    (hash_size bands : ℕ) :
    (buildState files hash_size bands).buckets =
      (List.range bands).map (bandFor files (hash_size ^ 2 / bands)) := by
  induction files using List.reverseRecOn with
  | nil =>
    unfold buildState bandFor decoded
    simp [List.map_const', List.eq_replicate_iff]
  | append_singleton fs f ih =>
    unfold buildState at ih ⊢
    rw [List.foldl_append]
    simp only [List.foldl_cons, List.foldl_nil]
    rcases f with ⟨p, s?⟩
    cases s? with
    | none =>
      have hd : decoded (fs ++ [(p, none)]) = decoded fs := by
        simp [decoded_append, decoded]
      rw [processFile_none, ih]
      apply List.map_congr_left
      intro i _
      unfold bandFor
      rw [hd]
    | some s =>
      have hd : decoded (fs ++ [(p, some s)]) = decoded fs ++ [(p, s)] := by
        simp [decoded_append, decoded]
      rw [processFile_some]
      dsimp only
      rw [ih, List.zipWith_map_right, List.zipWith_same]
      apply List.map_congr_left
      intro i _
      unfold bandFor
      rw [hd, List.foldl_append]
      simp only [List.foldl_cons, List.foldl_nil]

theorem bandFold_val (ds : List (String × Sig)) (rows i : ℕ) (k : Sig)
    (b : BandMap) :
    (ds.foldl (fun b d => bandInsert b (bandSlice d.2 rows i) d.1) b).val k =
      b.val k ++
        ds.filterMap
          (fun d => if bandSlice d.2 rows i = k then some d.1 else none) := by
  induction ds generalizing b with
  | nil => simp
  | cons d rest ih =>
    simp only [List.foldl_cons, List.filterMap_cons]
    rw [ih]
    by_cases hk : bandSlice d.2 rows i = k
    · simp [bandInsert, hk]
    · have hk' : ¬ k = bandSlice d.2 rows i := fun h => hk h.symm
      simp [bandInsert, hk, hk']

/-- The content of the bucket for key `k` in band `i`: the decoded paths
whose band-`i` slice equals `k`, in listing order. -/
theorem bandFor_val (files : List (String × Option Sig)) (rows i : ℕ) (k : Sig) :
    (bandFor files rows i).val k =
      (decoded files).filterMap
        (fun d => if bandSlice d.2 rows i = k then some d.1 else none) := by
  unfold bandFor
  rw [bandFold_val]
  rfl

theorem bandInsert_keys_mem (b : BandMap) (k0 : Sig) (p : String) (k : Sig) :
    k ∈ (bandInsert b k0 p).keys ↔ k ∈ b.keys ∨ k = k0 := by
  unfold bandInsert
  by_cases hmem : k0 ∈ b.keys
  · simp only [if_pos hmem]
    constructor
    · exact Or.inl
    · rintro (h | rfl)
      · exact h
      · exact hmem
  · simp [if_neg hmem]

theorem bandFold_keys (ds : List (String × Sig)) (rows i : ℕ) (k : Sig)
    (b : BandMap) :
    k ∈ (ds.foldl (fun b d => bandInsert b (bandSlice d.2 rows i) d.1) b).keys ↔
      k ∈ b.keys ∨ ∃ d ∈ ds, bandSlice d.2 rows i = k := by
  induction ds generalizing b with
  | nil => simp
  | cons d rest ih =>
    simp only [List.foldl_cons, List.mem_cons]
    rw [ih, bandInsert_keys_mem]
    constructor
    · rintro ((hb | rfl) | ⟨d', hd', hk⟩)
      · exact Or.inl hb
      · exact Or.inr ⟨d, Or.inl rfl, rfl⟩
      · exact Or.inr ⟨d', Or.inr hd', hk⟩
    · rintro (hb | ⟨d', (rfl | hd'), hk⟩)
      · exact Or.inl (Or.inl hb)
      · exact Or.inl (Or.inr hk.symm)
      · exact Or.inr ⟨d', hd', hk⟩

theorem bandFor_keys (files : List (String × Option Sig)) (rows i : ℕ) (k : Sig) :
    k ∈ (bandFor files rows i).keys ↔
      ∃ d ∈ decoded files, bandSlice d.2 rows i = k := by
  unfold bandFor
  rw [bandFold_keys]
  simp

/-! ## Sorting and pairing lemmas -/

theorem insertS_perm (le : α → α → Bool) (x : α) (l : List α) :
    (insertS le x l).Perm (x :: l) := by
  induction l with
  | nil => exact List.Perm.refl _
  | cons y ys ih =>
    unfold insertS
    by_cases h : le x y
    · simp [h]
    · rw [if_neg h]
      exact (List.Perm.cons y ih).trans (List.Perm.swap x y ys)

theorem stableSort_perm (le : α → α → Bool) (l : List α) :
    (stableSort le l).Perm l := by
  induction l with
  | nil => exact List.Perm.refl _
  | cons x xs ih =>
    unfold stableSort
    exact (insertS_perm le x (stableSort le xs)).trans (List.Perm.cons x ih)

theorem pairwise_insertS (le : α → α → Bool)
    (htrans : ∀ a b c, le a b = true → le b c = true → le a c = true)
    (htotal : ∀ a b, le a b = true ∨ le b a = true)
    (x : α) (l : List α) (h : l.Pairwise (fun a b => le a b = true)) :
    (insertS le x l).Pairwise (fun a b => le a b = true) := by
  induction l with
  | nil => simp [insertS]
  | cons y ys ih =>
    rcases List.pairwise_cons.mp h with ⟨hy, hys⟩
    unfold insertS
    by_cases hxy : le x y
    · rw [if_pos hxy]
      refine List.pairwise_cons.mpr ⟨?_, h⟩
      intro z hz
      rcases List.mem_cons.mp hz with rfl | hz
      · exact hxy
      · exact htrans x y z hxy (hy z hz)
    · have hyx : le y x = true := by
        rcases htotal x y with h' | h'
        · exact absurd h' hxy
        · exact h'
      rw [if_neg hxy]
      refine List.pairwise_cons.mpr ⟨?_, ih hys⟩
      intro z hz
      rcases (insertS_perm le x ys).mem_iff.mp hz with h'
      rcases List.mem_cons.mp h' with rfl | hz'
      · exact hyx
      · exact hy z hz'

theorem pairwise_stableSort (le : α → α → Bool)
    (htrans : ∀ a b c, le a b = true → le b c = true → le a c = true)
    (htotal : ∀ a b, le a b = true ∨ le b a = true)
    (l : List α) :
    (stableSort le l).Pairwise (fun a b => le a b = true) := by
  induction l with
  | nil => simp [stableSort]
  | cons x xs ih => exact pairwise_insertS le htrans htotal x _ ih

theorem allPairs_rel (R : α → α → Prop) (l : List α) (h : l.Pairwise R) :
    ∀ p ∈ allPairs l, R p.1 p.2 := by
  induction l with
  | nil => intro p hp; simp [allPairs] at hp
  | cons x xs ih =>
    rcases List.pairwise_cons.mp h with ⟨hx, hxs⟩
    intro p hp
    unfold allPairs at hp
    rcases List.mem_append.mp hp with hp | hp
    · rcases List.mem_map.mp hp with ⟨y, hy, rfl⟩
      exact hx y hy
    · exact ih hxs p hp

theorem mem_allPairs_of_lt (l : List String)
    (h : l.Pairwise (fun a b => a ≤ b)) (x y : String)
    (hx : x ∈ l) (hy : y ∈ l) (hxy : x < y) : (x, y) ∈ allPairs l := by
  induction l with
  | nil => simp at hx
  | cons z zs ih =>
    rcases List.pairwise_cons.mp h with ⟨hz, hzs⟩
    unfold allPairs
    rcases List.mem_cons.mp hx with rfl | hx'
    · have hy' : y ∈ zs := by
        rcases List.mem_cons.mp hy with rfl | hy'
        · exact absurd hxy (lt_irrefl y)
        · exact hy'
      exact List.mem_append.mpr (Or.inl (List.mem_map.mpr ⟨y, hy', rfl⟩))
    · have hy' : y ∈ zs := by
        rcases List.mem_cons.mp hy with rfl | hy'
        · exact absurd (lt_of_le_of_lt (hz x hx') hxy) (lt_irrefl y)
        · exact hy'
      exact List.mem_append.mpr (Or.inr (ih hzs hx' hy'))

theorem dictLookup_map_self {β : Type} (f : String × Sig → β)
    (ds : List (String × Sig)) (p : String) (s : Sig)
    (hnd : (ds.map Prod.fst).Nodup) (hmem : (p, s) ∈ ds) :
    dictLookup p (ds.map (fun d => (d.1, f d))) = some (f (p, s)) := by
  induction ds with
  | nil => simp at hmem
  | cons d rest ih =>
    simp only [List.map_cons, List.nodup_cons] at hnd
    rcases List.mem_cons.mp hmem with rfl | hmem'
    · simp [dictLookup]
    · rw [List.map_cons]
      unfold dictLookup
      by_cases hk : d.1 = p
      · exfalso
        apply hnd.1
        rw [hk]
        exact List.mem_map.mpr ⟨(p, s), hmem', rfl⟩
      · rw [if_neg hk]
        exact ih hnd.2 hmem'

theorem filterMap_if_fst_sublist {P : String × Sig → Prop} [DecidablePred P]
    (ds : List (String × Sig)) :
    (ds.filterMap (fun d => if P d then some d.1 else none)).Sublist
      (ds.map Prod.fst) := by
  induction ds with
  | nil => simp
  | cons d rest ih =>
    simp only [List.filterMap_cons, List.map_cons]
    by_cases hp : P d
    · simp only [hp, if_pos]
      exact ih.cons₂ d.1
    · simp only [hp, if_neg, not_false_iff]
      exact ih.cons d.1

theorem decoded_fst_sublist (files : List (String × Option Sig)) :
    ((decoded files).map Prod.fst).Sublist (files.map Prod.fst) := by
  induction files with
  | nil => simp [decoded]
  | cons f rest ih =>
    rcases f with ⟨p, s?⟩
    cases s? with
    | none =>
      simp only [decoded, List.filterMap_cons, List.map_cons]
      exact List.Sublist.cons p ih
    | some s =>
      simp only [decoded, List.filterMap_cons, List.map_cons]
      exact List.Sublist.cons₂ p ih

theorem bucket_nodup (files : List (String × Option Sig)) (rows i : ℕ) (k : Sig)
    (hnd : (files.map Prod.fst).Nodup) :
    ((bandFor files rows i).val k).Nodup := by
  rw [bandFor_val]
  have h1 : ((decoded files).map Prod.fst).Nodup :=
    (decoded_fst_sublist files).nodup hnd
  exact (filterMap_if_fst_sublist (decoded files)).nodup h1

theorem strLe_trans : ∀ a b c : String,
    strLe a b = true → strLe b c = true → strLe a c = true := by
  intro a b c hab hbc
  simp only [strLe, decide_eq_true_eq] at *
  exact le_trans hab hbc

theorem strLe_total : ∀ a b : String, strLe a b = true ∨ strLe b a = true := by
  intro a b
  simp only [strLe, decide_eq_true_eq]
  exact le_total a b

theorem sorted_bucket_pairwise_lt (l : List String) (hnd : l.Nodup) :
    (stableSort strLe l).Pairwise (fun a b => a < b) := by
  have h1 := pairwise_stableSort strLe strLe_trans strLe_total l
  have h1' : (stableSort strLe l).Pairwise (fun a b => a ≤ b) := by
    refine h1.imp ?_
    intro a b hab
    simpa [strLe, decide_eq_true_eq] using hab
  have h2 : (stableSort strLe l).Nodup :=
    ((stableSort_perm strLe l).nodup_iff).mpr hnd
  exact (h1'.and h2).imp (fun h => lt_of_le_of_ne h.1 h.2)

/-- Structure of membership in the candidate-pair list. -/
theorem mem_candidateList_iff (files : List (String × Option Sig))
    (hash_size bands : ℕ) (p : String × String) :
    p ∈ candidateList (buildState files hash_size bands) ↔
      ∃ i < bands, ∃ k ∈ (bandFor files (hash_size ^ 2 / bands) i).keys,
        ((bandFor files (hash_size ^ 2 / bands) i).val k).length > 1 ∧
        p ∈ allPairs
          (stableSort strLe ((bandFor files (hash_size ^ 2 / bands) i).val k)) := by
  unfold candidateList
  rw [buildState_buckets]
  simp only [List.mem_flatMap, List.mem_map, List.mem_range]
  constructor
  · rintro ⟨bm, ⟨i, hi, rfl⟩, hp⟩
    unfold bandPairs at hp
    simp only [List.mem_flatMap] at hp
    rcases hp with ⟨k, hk, hp⟩
    by_cases hlen : ((bandFor files (hash_size ^ 2 / bands) i).val k).length > 1
    · exact ⟨i, hi, k, hk, hlen, by simpa [hlen] using hp⟩
    · simp [hlen] at hp
  · rintro ⟨i, hi, k, hk, hlen, hp⟩
    refine ⟨bandFor files (hash_size ^ 2 / bands) i, ⟨i, hi, rfl⟩, ?_⟩
    unfold bandPairs
    simp only [List.mem_flatMap]
    exact ⟨k, hk, by simpa [hlen] using hp⟩

/-! ## Claim theorems: similarity scoring -/

/-- C4: for a candidate pair whose stored (packed) signatures come from
fingerprints `fa`, `fb` of length `L = hash_size²`, the similarity the code
computes — `np.packbits` at storage time, then `np.unpackbits`, bitwise XOR
and popcount at scoring time — equals `(L − d) / L` for `d` the Hamming
distance of the original fingerprints, and lies in `[0, 1]`. -/
theorem C4_similarity_eq_hamming (hash_size : ℕ) (a b : String) (fa fb : Sig)
    (hab : a ≠ b)
    (ha : fa.length = hash_size ^ 2) (hb : fb.length = hash_size ^ 2)
    (hs : 0 < hash_size) :
    similarity [(a, packbits fa), (b, packbits fb)] (hash_size ^ 2) a b =
        ((hash_size ^ 2 : ℚ) - xorCount fa fb) / (hash_size ^ 2 : ℚ) ∧
      0 ≤ similarity [(a, packbits fa), (b, packbits fb)] (hash_size ^ 2) a b ∧
      similarity [(a, packbits fa), (b, packbits fb)] (hash_size ^ 2) a b ≤ 1 := by
  have hlook_a : dictLookup a [(a, packbits fa), (b, packbits fb)] =
      some (packbits fa) := by simp [dictLookup]
  have hlook_b : dictLookup b [(a, packbits fa), (b, packbits fb)] =
      some (packbits fb) := by simp [dictLookup, hab]
  have hlen : fa.length = fb.length := ha.trans hb.symm
  have hsim : similarity [(a, packbits fa), (b, packbits fb)] (hash_size ^ 2) a b =
      ((hash_size ^ 2 : ℚ) - xorCount fa fb) / (hash_size ^ 2 : ℚ) := by
    unfold similarity
    rw [hlook_a, hlook_b]
    simp only [Option.getD_some]
    rw [unpackbits_packbits, unpackbits_packbits, xorCount_pad8 fa fb hlen]
    push_cast
    ring
  refine ⟨hsim, ?_, ?_⟩
  · rw [hsim]
    apply div_nonneg
    · have hd : xorCount fa fb ≤ hash_size ^ 2 := ha ▸ xorCount_le_length fa fb
      have : (xorCount fa fb : ℚ) ≤ (hash_size ^ 2 : ℚ) := by exact_mod_cast hd
      linarith
    · positivity
  · rw [hsim]
    have hL : (0 : ℚ) < (hash_size ^ 2 : ℚ) := by positivity
    rw [div_le_one hL]
    have : (0 : ℚ) ≤ (xorCount fa fb : ℚ) := by positivity
    linarith

theorem C4_similarity_eq_hamming_witness :
    ("a" : String) ≠ "b" ∧
      similarity [("a", packbits [true]), ("b", packbits [false])] (1 ^ 2) "a" "b" =
          ((1 ^ 2 : ℚ) - xorCount [true] [false]) / (1 ^ 2 : ℚ) ∧
        0 ≤ similarity [("a", packbits [true]), ("b", packbits [false])] (1 ^ 2) "a" "b" ∧
        similarity [("a", packbits [true]), ("b", packbits [false])] (1 ^ 2) "a" "b" ≤ 1 :=
  ⟨by decide,
   C4_similarity_eq_hamming 1 "a" "b" [true] [false] (by decide) rfl rfl (by decide)⟩

/-- Membership characterization of the output list. -/
theorem mem_find_near_duplicates (files : List (String × Option Sig))
    (threshold : ℚ) (hash_size bands : ℕ) (a b : String) (s : ℚ) :
    (a, b, s) ∈ find_near_duplicates files threshold hash_size bands ↔
      ((a, b) ∈ (candidateList (buildState files hash_size bands)).dedup ∧
        s = similarity (buildState files hash_size bands).signatures
              (hash_size ^ 2) a b ∧
        threshold < s) := by
  unfold find_near_duplicates scorePairs
  rw [(stableSort_perm simGe _).mem_iff, List.mem_filterMap]
  constructor
  · rintro ⟨p, hp, hsome⟩
    by_cases ht : threshold <
        similarity (buildState files hash_size bands).signatures
          (hash_size ^ 2) p.1 p.2
    · rw [if_pos ht] at hsome
      simp only [Option.some.injEq, Prod.mk.injEq] at hsome
      rcases hsome with ⟨h1, h2, h3⟩
      subst h1
      subst h2
      subst h3
      exact ⟨by rw [Prod.mk.eta]; exact hp, rfl, ht⟩
    · rw [if_neg ht] at hsome
      simp at hsome
  · rintro ⟨hp, rfl, ht⟩
    exact ⟨(a, b), hp, by rw [if_pos ht]⟩

theorem countP_filterMap_le_count {α β : Type} [DecidableEq α] (f : α → Option β)
    (q : β → Bool) (x : α) (hf : ∀ y z, f y = some z → q z = true → y = x)
    (l : List α) : (l.filterMap f).countP q ≤ l.count x := by
  induction l with
  | nil => simp
  | cons a rest ih =>
    rw [List.filterMap_cons, List.count_cons]
    cases hfa : f a with
    | none =>
      refine le_trans ih ?_
      omega
    | some b =>
      rw [List.countP_cons]
      by_cases hq : q b
      · have hx : a = x := hf a b hfa hq
        simp only [hq, if_pos, hx, beq_self_eq_true]
        omega
      · simp only [hq, if_neg, Bool.false_eq_true, not_false_iff]
        refine le_trans ih ?_
        omega

/-- C5: every candidate pair is emitted in canonical orientation (first
component lexicographically smaller), the candidate set never contains both
orientations, the deduplicated candidate set holds each pair at most once,
and consequently each pair occurs at most once in the scored output. -/
theorem C5_canonical_candidate_pairs (files : List (String × Option Sig))
    (threshold : ℚ) (hash_size bands : ℕ)
    (hnd : (files.map Prod.fst).Nodup) :
    (∀ p ∈ candidateList (buildState files hash_size bands), p.1 < p.2) ∧
    (∀ a b : String,
        (a, b) ∈ (candidateList (buildState files hash_size bands)).dedup →
        (b, a) ∉ (candidateList (buildState files hash_size bands)).dedup) ∧
    (candidateList (buildState files hash_size bands)).dedup.Nodup ∧
    (∀ a b : String,
        (find_near_duplicates files threshold hash_size bands).countP
          (fun x => decide (x.1 = a ∧ x.2.1 = b)) ≤ 1) := by
  have hlt : ∀ p ∈ candidateList (buildState files hash_size bands),
      p.1 < p.2 := by
    intro p hp
    rcases (mem_candidateList_iff files hash_size bands p).mp hp with
      ⟨i, hi, k, hk, hlen, hmem⟩
    exact allPairs_rel _ _
      (sorted_bucket_pairwise_lt _ (bucket_nodup files _ i k hnd)) p hmem
  refine ⟨hlt, ?_, List.nodup_dedup _, ?_⟩
  · intro a b hab hba
    have h1 := hlt (a, b) (List.mem_dedup.mp hab)
    have h2 := hlt (b, a) (List.mem_dedup.mp hba)
    exact absurd (h1.trans h2) (lt_irrefl a)
  · intro a b
    unfold find_near_duplicates scorePairs
    rw [(stableSort_perm simGe _).countP_eq]
    refine le_trans
      (countP_filterMap_le_count _ _ (a, b) ?_ _)
      (List.nodup_iff_count_le_one.mp (List.nodup_dedup _) (a, b))
    rintro y z hz hq
    by_cases ht : threshold <
        similarity (buildState files hash_size bands).signatures
          (hash_size ^ 2) y.1 y.2
    · rw [if_pos ht] at hz
      simp only [Option.some.injEq] at hz
      subst hz
      simp only [decide_eq_true_eq] at hq
      have : y = (y.1, y.2) := (Prod.mk.eta).symm
      rw [this, hq.1, hq.2]
    · rw [if_neg ht] at hz
      simp at hz

theorem C5_canonical_candidate_pairs_witness :
    (([("a", some [true]), ("b", some [true])].map
        (Prod.fst (α := String) (β := Option Sig))).Nodup) ∧
    ((∀ p ∈ candidateList (buildState [("a", some [true]), ("b", some [true])] 1 1),
        p.1 < p.2) ∧
    (∀ a b : String,
        (a, b) ∈ (candidateList (buildState [("a", some [true]), ("b", some [true])] 1 1)).dedup →
        (b, a) ∉ (candidateList (buildState [("a", some [true]), ("b", some [true])] 1 1)).dedup) ∧
    (candidateList (buildState [("a", some [true]), ("b", some [true])] 1 1)).dedup.Nodup ∧
    (∀ a b : String,
        (find_near_duplicates [("a", some [true]), ("b", some [true])] (1/2) 1 1).countP
          (fun x => decide (x.1 = a ∧ x.2.1 = b)) ≤ 1)) :=
  ⟨by decide,
   C5_canonical_candidate_pairs [("a", some [true]), ("b", some [true])]
     (1/2) 1 1 (by decide)⟩

/-- C8: a file whose decode fails is skipped entirely — the pipeline's result
on the full listing equals its result on the decodable files alone. -/
theorem C8_decode_failures_skipped (files : List (String × Option Sig))
    (threshold : ℚ) (hash_size bands : ℕ) :
    find_near_duplicates files threshold hash_size bands =
      find_near_duplicates ((decoded files).map (fun d => (d.1, some d.2)))
        threshold hash_size bands := by
  have hdec : decoded ((decoded files).map (fun d => (d.1, some d.2))) =
      decoded files := by
    unfold decoded
    rw [List.filterMap_map]
    have : ((fun f : String × Option Sig => f.2.map (fun s => (f.1, s))) ∘
        (fun d : String × Sig => (d.1, some d.2))) = some := by
      funext d
      simp
    rw [this, List.filterMap_some]
  have hsig : (buildState files hash_size bands).signatures =
      (buildState ((decoded files).map (fun d => (d.1, some d.2)))
        hash_size bands).signatures := by
    rw [buildState_signatures, buildState_signatures, hdec]
  have hbuck : (buildState files hash_size bands).buckets =
      (buildState ((decoded files).map (fun d => (d.1, some d.2)))
        hash_size bands).buckets := by
    rw [buildState_buckets, buildState_buckets]
    apply List.map_congr_left
    intro i _
    unfold bandFor
    rw [hdec]
  simp only [find_near_duplicates, candidateList]
  rw [hsig, hbuck]

/-- C3: a triple belongs to the output of `find_near_duplicates` exactly when
its pair is a candidate pair, its similarity component is the similarity the
code computes for that pair, and that similarity STRICTLY exceeds the
threshold; in particular a candidate pair whose similarity equals the
threshold is excluded. -/
theorem C3_strict_threshold (files : List (String × Option Sig))
    (threshold : ℚ) (hash_size bands : ℕ) (a b : String) (s : ℚ) :
    ((a, b, s) ∈ find_near_duplicates files threshold hash_size bands ↔
      ((a, b) ∈ (candidateList (buildState files hash_size bands)).dedup ∧
        s = similarity (buildState files hash_size bands).signatures
              (hash_size ^ 2) a b ∧
        threshold < s)) ∧
    (similarity (buildState files hash_size bands).signatures (hash_size ^ 2)
        a b = threshold →
      ∀ s', (a, b, s') ∉ find_near_duplicates files threshold hash_size bands) := by
  refine ⟨mem_find_near_duplicates files threshold hash_size bands a b s, ?_⟩
  intro heq s' hmem
  rcases (mem_find_near_duplicates files threshold hash_size bands a b s').mp hmem
    with ⟨-, hs', hlt⟩
  rw [hs', heq] at hlt
  exact lt_irrefl threshold hlt

theorem one_lt_length_of_mem_ne {α : Type} {l : List α} {a b : α}
    (ha : a ∈ l) (hb : b ∈ l) (hab : a ≠ b) : 1 < l.length := by
  match l with
  | [] => simp at ha
  | [x] =>
    rw [List.mem_singleton] at ha hb
    exact absurd (ha.trans hb.symm) hab
  | x :: y :: rest => simp [List.length_cons]

theorem mem_decoded (files : List (String × Option Sig)) (p : String) (s : Sig)
    (h : (p, some s) ∈ files) : (p, s) ∈ decoded files := by
  unfold decoded
  rw [List.mem_filterMap]
  exact ⟨(p, some s), h, rfl⟩

theorem mem_bucket_of_decoded (files : List (String × Option Sig))
    (rows i : ℕ) (p : String) (s : Sig) (h : (p, s) ∈ decoded files) :
    p ∈ (bandFor files rows i).val (bandSlice s rows i) := by
  rw [bandFor_val, List.mem_filterMap]
  exact ⟨(p, s), h, by rw [if_pos rfl]⟩

/-- C9: two decodable files with bit-for-bit equal fingerprints fall in the
same bucket in every band, their pair becomes a candidate pair with
similarity exactly 1, and it appears in the output whenever
`threshold < 1`. -/
theorem C9_identical_fingerprints (files : List (String × Option Sig))
    (threshold : ℚ) (hash_size bands : ℕ) (p₁ p₂ : String) (s : Sig)
    (hnd : (files.map Prod.fst).Nodup)
    (h1 : (p₁, some s) ∈ files) (h2 : (p₂, some s) ∈ files)
    (hlt : p₁ < p₂) (hbands : 0 < bands) (hs : 0 < hash_size)
    (ht : threshold < 1) :
    (∀ i < bands,
        p₁ ∈ (bandFor files (hash_size ^ 2 / bands) i).val
              (bandSlice s (hash_size ^ 2 / bands) i) ∧
        p₂ ∈ (bandFor files (hash_size ^ 2 / bands) i).val
              (bandSlice s (hash_size ^ 2 / bands) i)) ∧
    similarity (buildState files hash_size bands).signatures (hash_size ^ 2)
        p₁ p₂ = 1 ∧
    (p₁, p₂, 1) ∈ find_near_duplicates files threshold hash_size bands := by
  have hd1 : (p₁, s) ∈ decoded files := mem_decoded files p₁ s h1
  have hd2 : (p₂, s) ∈ decoded files := mem_decoded files p₂ s h2
  have hdnd : ((decoded files).map Prod.fst).Nodup :=
    (decoded_fst_sublist files).nodup hnd
  have hsim : similarity (buildState files hash_size bands).signatures
      (hash_size ^ 2) p₁ p₂ = 1 := by
    rw [buildState_signatures]
    unfold similarity
    rw [dictLookup_map_self (fun d => packbits d.2) _ p₁ s hdnd hd1,
        dictLookup_map_self (fun d => packbits d.2) _ p₂ s hdnd hd2]
    simp only [Option.getD_some]
    rw [unpackbits_packbits, xorCount_self]
    have hL : ((hash_size ^ 2 : ℕ) : ℚ) ≠ 0 := by positivity
    field_simp
  have hbmem : ∀ i < bands,
      p₁ ∈ (bandFor files (hash_size ^ 2 / bands) i).val
            (bandSlice s (hash_size ^ 2 / bands) i) ∧
      p₂ ∈ (bandFor files (hash_size ^ 2 / bands) i).val
            (bandSlice s (hash_size ^ 2 / bands) i) := by
    intro i hi
    exact ⟨mem_bucket_of_decoded files _ i p₁ s hd1,
           mem_bucket_of_decoded files _ i p₂ s hd2⟩
  refine ⟨hbmem, hsim, ?_⟩
  rw [mem_find_near_duplicates]
  refine ⟨?_, hsim.symm, ht⟩
  rw [List.mem_dedup, mem_candidateList_iff]
  refine ⟨0, hbands, bandSlice s (hash_size ^ 2 / bands) 0, ?_, ?_, ?_⟩
  · rw [bandFor_keys]
    exact ⟨(p₁, s), hd1, rfl⟩
  · exact one_lt_length_of_mem_ne (hbmem 0 hbands).1 (hbmem 0 hbands).2
      (ne_of_lt hlt)
  · apply mem_allPairs_of_lt _ _ p₁ p₂ _ _ hlt
    · refine (pairwise_stableSort strLe strLe_trans strLe_total _).imp ?_
      intro a b hab
      simpa [strLe, decide_eq_true_eq] using hab
    · exact (stableSort_perm strLe _).mem_iff.mpr (hbmem 0 hbands).1
    · exact (stableSort_perm strLe _).mem_iff.mpr (hbmem 0 hbands).2

theorem C9_identical_fingerprints_witness :
    (((([("a", some [true]), ("b", some [true])] :
          List (String × Option Sig)).map Prod.fst).Nodup) ∧
      ("a", some [true]) ∈ ([("a", some [true]), ("b", some [true])] :
          List (String × Option Sig)) ∧
      ("a" : String) < "b" ∧ (0 : ℕ) < 1 ∧ ((1 : ℚ)/2) < 1) ∧
    similarity (buildState [("a", some [true]), ("b", some [true])] 1 1).signatures
        (1 ^ 2) "a" "b" = 1 ∧
    ("a", "b", (1 : ℚ)) ∈ find_near_duplicates
        [("a", some [true]), ("b", some [true])] (1/2) 1 1 :=
  ⟨⟨by decide, by decide, by rw [String.lt_iff_toList_lt]; decide, by decide,
    by norm_num⟩,
   (C9_identical_fingerprints [("a", some [true]), ("b", some [true])]
      (1/2) 1 1 "a" "b" [true] (by decide) (by decide) (by decide)
      (by rw [String.lt_iff_toList_lt]; decide) (by decide) (by decide)
      (by norm_num)).2⟩

/-- C10: when `bands > hash_size²`, `rows = int(hash_size²/bands) = 0`, every
band slice is the empty bit sequence, every decoded image lands in the single
bucket keyed by the empty slice in every band, and every unordered pair of
distinct decoded images becomes a candidate pair: the LSH narrowing silently
degenerates to all-pairs comparison. -/
theorem C10_degenerate_bands (files : List (String × Option Sig))
    (hash_size bands : ℕ) (p₁ p₂ : String) (s₁ s₂ : Sig)
    (h1 : (p₁, some s₁) ∈ files) (h2 : (p₂, some s₂) ∈ files)
    (hlt : p₁ < p₂) (hb : hash_size ^ 2 < bands) :
    hash_size ^ 2 / bands = 0 ∧
    (∀ sig : Sig, ∀ i : ℕ, bandSlice sig (hash_size ^ 2 / bands) i = []) ∧
    (∀ i : ℕ, (bandFor files (hash_size ^ 2 / bands) i).val [] =
        (decoded files).map Prod.fst) ∧
    (p₁, p₂) ∈ candidateList (buildState files hash_size bands) := by
  have hrows : hash_size ^ 2 / bands = 0 := Nat.div_eq_of_lt hb
  have hslice : ∀ sig : Sig, ∀ i : ℕ,
      bandSlice sig (hash_size ^ 2 / bands) i = [] := by
    intro sig i
    rw [hrows]
    simp [bandSlice]
  have hbucket : ∀ i : ℕ, (bandFor files (hash_size ^ 2 / bands) i).val [] =
      (decoded files).map Prod.fst := by
    intro i
    rw [bandFor_val]
    have hfun : (fun d : String × Sig =>
        if bandSlice d.2 (hash_size ^ 2 / bands) i = [] then some d.1
        else none) = some ∘ Prod.fst := by
      funext d
      rw [if_pos (hslice d.2 i)]
      rfl
    rw [hfun, List.filterMap_eq_map]
  have hd1 : (p₁, s₁) ∈ decoded files := mem_decoded files p₁ s₁ h1
  have hd2 : (p₂, s₂) ∈ decoded files := mem_decoded files p₂ s₂ h2
  have hm1 : p₁ ∈ (bandFor files (hash_size ^ 2 / bands) 0).val [] := by
    rw [hbucket 0]
    exact List.mem_map.mpr ⟨(p₁, s₁), hd1, rfl⟩
  have hm2 : p₂ ∈ (bandFor files (hash_size ^ 2 / bands) 0).val [] := by
    rw [hbucket 0]
    exact List.mem_map.mpr ⟨(p₂, s₂), hd2, rfl⟩
  refine ⟨hrows, hslice, hbucket, ?_⟩
  rw [mem_candidateList_iff]
  refine ⟨0, by omega, [], ?_, ?_, ?_⟩
  · rw [bandFor_keys]
    exact ⟨(p₁, s₁), hd1, hslice s₁ 0⟩
  · exact one_lt_length_of_mem_ne hm1 hm2 (ne_of_lt hlt)
  · apply mem_allPairs_of_lt _ _ p₁ p₂ _ _ hlt
    · refine (pairwise_stableSort strLe strLe_trans strLe_total _).imp ?_
      intro a b hab
      simpa [strLe, decide_eq_true_eq] using hab
    · exact (stableSort_perm strLe _).mem_iff.mpr hm1
    · exact (stableSort_perm strLe _).mem_iff.mpr hm2

theorem C10_degenerate_bands_witness :
    ((("a", some [true]) ∈ ([("a", some [true]), ("b", some [false])] :
          List (String × Option Sig))) ∧
      ("a" : String) < "b" ∧ (1 : ℕ) ^ 2 < 2) ∧
    (1 ^ 2 / 2 = 0 ∧
      (∀ sig : Sig, ∀ i : ℕ, bandSlice sig (1 ^ 2 / 2) i = []) ∧
      (∀ i : ℕ,
        (bandFor [("a", some [true]), ("b", some [false])] (1 ^ 2 / 2) i).val [] =
          (decoded [("a", some [true]), ("b", some [false])]).map Prod.fst) ∧
      ("a", "b") ∈ candidateList
        (buildState [("a", some [true]), ("b", some [false])] 1 2)) :=
  ⟨⟨by decide, by rw [String.lt_iff_toList_lt]; decide, by decide⟩,
   C10_degenerate_bands [("a", some [true]), ("b", some [false])] 1 2 "a" "b"
     [true] [false] (by decide) (by decide)
     (by rw [String.lt_iff_toList_lt]; decide) (by decide)⟩

/-! ## Claim theorems: output ordering -/

theorem simGe_trans : ∀ x y z : String × String × ℚ,
    simGe x y = true → simGe y z = true → simGe x z = true := by
  intro x y z hxy hyz
  simp only [simGe, decide_eq_true_eq] at *
  exact le_trans hyz hxy

theorem simGe_total : ∀ x y : String × String × ℚ,
    simGe x y = true ∨ simGe y x = true := by
  intro x y
  simp only [simGe, decide_eq_true_eq]
  exact le_total y.2.2 x.2.2

/-- C1 (amended): the output of `find_near_duplicates` is sorted by
non-increasing similarity.  The sort keys on the similarity component only;
equal-similarity triples stay in the enumeration order of the candidate-pair
set (the sort is stable), so no canonical tie-break is applied. -/
theorem C1_amended_sorted_by_similarity (files : List (String × Option Sig))
    (threshold : ℚ) (hash_size bands : ℕ) :
    (find_near_duplicates files threshold hash_size bands).Pairwise
      (fun x y => y.2.2 ≤ x.2.2) := by
  unfold find_near_duplicates scorePairs
  refine (pairwise_stableSort simGe simGe_trans simGe_total _).imp ?_
  intro x y h
  simpa [simGe, decide_eq_true_eq] using h

/-- C1 is false as stated: the scoring-and-sorting stage is not independent
of the enumeration order of the candidate-pair set.  Two enumerations of the
same set (equal as finite sets) yield different output lists, because the
sort keys only on similarity and ties keep enumeration order instead of the
canonical pair order. -/
theorem C1_counterexample :
    (([("a", "b"), ("c", "d")] : List (String × String)).toFinset =
       ([("c", "d"), ("a", "b")] : List (String × String)).toFinset) ∧
    scorePairs
        [("a", packbits [true]), ("b", packbits [true]),
         ("c", packbits [true]), ("d", packbits [true])] 1 (1/2)
        [("a", "b"), ("c", "d")] ≠
      scorePairs
        [("a", packbits [true]), ("b", packbits [true]),
         ("c", packbits [true]), ("d", packbits [true])] 1 (1/2)
        [("c", "d"), ("a", "b")] := by
  have hlk : ∀ x : String,
      dictLookup x [("a", packbits [true]), ("b", packbits [true]),
        ("c", packbits [true]), ("d", packbits [true])] = none ∨
      dictLookup x [("a", packbits [true]), ("b", packbits [true]),
        ("c", packbits [true]), ("d", packbits [true])] =
          some (packbits [true]) := by
    intro x
    simp only [dictLookup]
    split_ifs <;> simp
  have hsim : ∀ x y : String,
      similarity [("a", packbits [true]), ("b", packbits [true]),
        ("c", packbits [true]), ("d", packbits [true])] 1 x y = 1 := by
    intro x y
    unfold similarity
    rcases hlk x with hx | hx <;> rcases hlk y with hy | hy <;>
        rw [hx, hy] <;>
      simp [unpackbits, xorCount_nil_left, xorCount_nil_right,
        xorCount_self]
  have e1 : scorePairs
      [("a", packbits [true]), ("b", packbits [true]),
       ("c", packbits [true]), ("d", packbits [true])] 1 (1/2)
      [("a", "b"), ("c", "d")] = [("a", "b", 1), ("c", "d", 1)] := by
    have hhalf : (1 : ℚ)/2 < 1 := by norm_num
    unfold scorePairs
    rw [List.filterMap_cons, List.filterMap_cons, List.filterMap_nil]
    simp only [hsim]
    rw [if_pos hhalf, if_pos hhalf]
    simp [stableSort, insertS, simGe]
  have e2 : scorePairs
      [("a", packbits [true]), ("b", packbits [true]),
       ("c", packbits [true]), ("d", packbits [true])] 1 (1/2)
      [("c", "d"), ("a", "b")] = [("c", "d", 1), ("a", "b", 1)] := by
    have hhalf : (1 : ℚ)/2 < 1 := by norm_num
    unfold scorePairs
    rw [List.filterMap_cons, List.filterMap_cons, List.filterMap_nil]
    simp only [hsim]
    rw [if_pos hhalf, if_pos hhalf]
    simp [stableSort, insertS, simGe]
  refine ⟨by decide, ?_⟩
  rw [e1, e2]
  decide

/-! ## Claim theorems: the app.py / detect.py interface -/

/-- C2 is contradicted by the source: `find_near_duplicates` declares no
subfolder-recursion parameter, so the call in `MyGUI.process_folder`, which
passes the keyword argument `include_SubFolders`, is rejected (Python raises
`TypeError` before the function body runs). -/
theorem C2_recursion_flag_rejected :
    callAccepted findNearDuplicatesParams processFolderKeyword = false := by
  decide

/-! ## group_similar_images: the union-find grouper

The Python code keeps a dict `parent`; we model it by the list of its keys
in insertion order plus a total function that is the identity off the keys
(the dict stores no entry there, and, the code maintaining
`parent[x] ∈ parent` for every key `x`, those values are never read).
`find`'s `while parent[x] != x` loop is run on fuel `keys.length`, which the
lemmas below show is enough for every state the code constructs (parent
chains are acyclic and no chain is longer than the number of keys, so the
Lean function agrees with the Python loop wherever the latter terminates).
-/

/-- `parent[a] = v`. -/
def upd (f : String → String) (a v : String) : String → String :=
  fun x => if x = a then v else f x

/-- The union-find state: dict key list (insertion order) and parent map. -/
structure UF where
  keys : List String
  parent : String → String

/-- The body of `find`:
`while parent[x] != x: parent[x] = parent[parent[x]]; x = parent[x]`. -/
def findAux : (String → String) → String → ℕ → (String → String) × String
  | p, x, 0 => (p, x)
  | p, x, fuel + 1 =>
    if p x = x then (p, x)
    else findAux (upd p x (p (p x))) (p (p x)) fuel

/-- `find(x)`: returns the root and the path-halved parent map. -/
def ufFind (uf : UF) (x : String) : UF × String :=
  let r := findAux uf.parent x uf.keys.length
  (⟨uf.keys, r.1⟩, r.2)

/-- `make_set(x)`: `if x not in parent: parent[x] = x`. -/
def makeSet (uf : UF) (x : String) : UF :=
  if x ∈ uf.keys then uf else ⟨uf.keys ++ [x], upd uf.parent x x⟩

/-- `union(x, y)`: find both roots, and if distinct re-point `root_y` at
`root_x`. -/
def ufUnion (uf : UF) (x y : String) : UF :=
  let fx := ufFind uf x
  let fy := ufFind fx.1 y
  if fx.2 ≠ fy.2 then ⟨fy.1.keys, upd fy.1.parent fy.2 fx.2⟩ else fy.1

/-- `clusters[root].append(img)` on the insertion-ordered
`defaultdict(list)`. -/
def insertCluster : List (String × List String) → String → String →
    List (String × List String)
  | [], r, img => [(r, [img])]
  | (k, v) :: rest, r, img =>
    if k = r then (k, v ++ [img]) :: rest
    else (k, v) :: insertCluster rest r img

/-- One step of `for img in parent: clusters[find(img)].append(img)`. -/
def clusterStep (acc : UF × List (String × List String)) (img : String) :
    UF × List (String × List String) :=
  let f := ufFind acc.1 img
  (f.1, insertCluster acc.2 f.2 img)

/-- `group_similar_images(near_duplicates)` (detect.py): make a singleton
set for each path of each pair, union the two paths of each pair, then group
the dict's keys by their root and return the groups. -/
def group_similar_images (near_duplicates : List (String × String × ℚ)) :
    List (List String) :=
  let uf1 := near_duplicates.foldl
    (fun uf t => makeSet (makeSet uf t.1) t.2.1) ⟨[], id⟩
  let uf2 := near_duplicates.foldl (fun uf t => ufUnion uf t.1 t.2.1) uf1
  ((uf2.keys.foldl clusterStep (uf2, [])).2).map Prod.snd

/-! ## C6: the grouper's output is a partition of the paths in the pairs -/

theorem ufFind_keys (uf : UF) (x : String) : (ufFind uf x).1.keys = uf.keys :=
  rfl

theorem ufUnion_keys (uf : UF) (x y : String) :
    (ufUnion uf x y).keys = uf.keys := by
  unfold ufUnion
  dsimp only
  split <;> rfl

theorem makeSet_keys_mem (uf : UF) (y x : String) :
    x ∈ (makeSet uf y).keys ↔ x ∈ uf.keys ∨ x = y := by
  unfold makeSet
  by_cases h : y ∈ uf.keys
  · rw [if_pos h]
    constructor
    · exact Or.inl
    · rintro (hx | rfl)
      · exact hx
      · exact h
  · rw [if_neg h]
    simp

theorem makeSet_keys_nodup (uf : UF) (y : String) (h : uf.keys.Nodup) :
    (makeSet uf y).keys.Nodup := by
  unfold makeSet
  by_cases hy : y ∈ uf.keys
  · rw [if_pos hy]
    exact h
  · rw [if_neg hy]
    simp [List.nodup_append, h, hy]

theorem foldl_makeSet_keys_mem (nd : List (String × String × ℚ)) (uf : UF)
    (x : String) :
    x ∈ (nd.foldl (fun uf t => makeSet (makeSet uf t.1) t.2.1) uf).keys ↔
      x ∈ uf.keys ∨ ∃ t ∈ nd, x = t.1 ∨ x = t.2.1 := by
  induction nd generalizing uf with
  | nil => simp
  | cons t rest ih =>
    rw [List.foldl_cons, ih, makeSet_keys_mem, makeSet_keys_mem]
    simp only [List.mem_cons]
    constructor
    · rintro (((hx | rfl) | rfl) | ⟨t', ht', hx⟩)
      · exact Or.inl hx
      · exact Or.inr ⟨t, Or.inl rfl, Or.inl rfl⟩
      · exact Or.inr ⟨t, Or.inl rfl, Or.inr rfl⟩
      · exact Or.inr ⟨t', Or.inr ht', hx⟩
    · rintro (hx | ⟨t', (rfl | ht'), hx⟩)
      · exact Or.inl (Or.inl (Or.inl hx))
      · rcases hx with rfl | rfl
        · exact Or.inl (Or.inl (Or.inr rfl))
        · exact Or.inl (Or.inr rfl)
      · exact Or.inr ⟨t', ht', hx⟩

theorem foldl_makeSet_keys_nodup (nd : List (String × String × ℚ)) (uf : UF)
    (h : uf.keys.Nodup) :
    (nd.foldl (fun uf t => makeSet (makeSet uf t.1) t.2.1) uf).keys.Nodup := by
  induction nd generalizing uf with
  | nil => exact h
  | cons t rest ih =>
    rw [List.foldl_cons]
    exact ih _ (makeSet_keys_nodup _ _ (makeSet_keys_nodup _ _ h))

theorem foldl_union_keys (nd : List (String × String × ℚ)) (uf : UF) :
    (nd.foldl (fun uf t => ufUnion uf t.1 t.2.1) uf).keys = uf.keys := by
  induction nd generalizing uf with
  | nil => rfl
  | cons t rest ih =>
    rw [List.foldl_cons, ih, ufUnion_keys]

theorem insertCluster_flatten_perm (cl : List (String × List String))
    (r img : String) :
    ((insertCluster cl r img).map Prod.snd).flatten.Perm
      ((cl.map Prod.snd).flatten ++ [img]) := by
  induction cl with
  | nil => simp [insertCluster]
  | cons e rest ih =>
    rcases e with ⟨k, v⟩
    unfold insertCluster
    by_cases hk : k = r
    · rw [if_pos hk]
      simp only [List.map_cons, List.flatten_cons]
      rw [List.append_assoc v [img], List.append_assoc v]
      exact (List.Perm.refl v).append List.perm_append_comm
    · rw [if_neg hk]
      simp only [List.map_cons, List.flatten_cons]
      rw [List.append_assoc v]
      exact (List.Perm.refl v).append ih

theorem clusterFold_flatten_perm (imgs : List String) (uf : UF)
    (cl : List (String × List String)) :
    ((imgs.foldl clusterStep (uf, cl)).2.map Prod.snd).flatten.Perm
      ((cl.map Prod.snd).flatten ++ imgs) := by
  induction imgs generalizing uf cl with
  | nil => simp
  | cons img rest ih =>
    rw [List.foldl_cons]
    refine (ih _ _).trans ?_
    refine ((insertCluster_flatten_perm cl _ img).append
      (List.Perm.refl rest)).trans ?_
    rw [List.append_assoc]
    exact List.Perm.refl _

theorem insertCluster_vals_ne_nil (cl : List (String × List String))
    (r img : String) (h : ∀ c ∈ cl, c.2 ≠ []) :
    ∀ c ∈ insertCluster cl r img, c.2 ≠ [] := by
  induction cl with
  | nil =>
    intro c hc
    simp only [insertCluster, List.mem_singleton] at hc
    subst hc
    simp
  | cons e rest ih =>
    rcases e with ⟨k, v⟩
    intro c hc
    unfold insertCluster at hc
    split at hc
    · rcases List.mem_cons.mp hc with rfl | hc'
      · simp
      · exact h c (List.mem_cons_of_mem _ hc')
    · rcases List.mem_cons.mp hc with rfl | hc'
      · exact h (k, v) (List.mem_cons_self _ _)
      · refine ih ?_ c hc'
        intro c' hc'
        exact h c' (List.mem_cons_of_mem _ hc')

theorem clusterFold_vals_ne_nil (imgs : List String) (uf : UF)
    (cl : List (String × List String)) (h : ∀ c ∈ cl, c.2 ≠ []) :
    ∀ c ∈ (imgs.foldl clusterStep (uf, cl)).2, c.2 ≠ [] := by
  induction imgs generalizing uf cl with
  | nil => exact h
  | cons img rest ih =>
    rw [List.foldl_cons]
    exact ih _ _ (insertCluster_vals_ne_nil cl _ img h)

/-- C6: the clusters returned by `group_similar_images` partition exactly
the set of paths appearing in the input pairs: the concatenation of all
clusters has no repeats (so clusters are pairwise disjoint and each member
occurs once in its cluster, which is unique for it), a path appears in some
cluster exactly when it appears in some input pair, and no empty cluster is
emitted. -/
theorem C6_partition (nd : List (String × String × ℚ)) :
    (group_similar_images nd).flatten.Nodup ∧
    (∀ x, x ∈ (group_similar_images nd).flatten ↔
      ∃ t ∈ nd, x = t.1 ∨ x = t.2.1) ∧
    (∀ c ∈ group_similar_images nd, c ≠ []) := by
  simp only [group_similar_images]
  have hkeys := foldl_union_keys nd
    (nd.foldl (fun uf t => makeSet (makeSet uf t.1) t.2.1) ⟨[], id⟩)
  have hperm := clusterFold_flatten_perm
    ((nd.foldl (fun uf t => ufUnion uf t.1 t.2.1)
      (nd.foldl (fun uf t => makeSet (makeSet uf t.1) t.2.1) ⟨[], id⟩)).keys)
    (nd.foldl (fun uf t => ufUnion uf t.1 t.2.1)
      (nd.foldl (fun uf t => makeSet (makeSet uf t.1) t.2.1) ⟨[], id⟩)) []
  simp only [List.map_nil, List.flatten_nil, List.nil_append] at hperm
  have hnodup : ((nd.foldl (fun uf t => ufUnion uf t.1 t.2.1)
      (nd.foldl (fun uf t => makeSet (makeSet uf t.1) t.2.1) ⟨[], id⟩)).keys).Nodup := by
    rw [hkeys]
    exact foldl_makeSet_keys_nodup nd _ List.nodup_nil
  refine ⟨hperm.nodup_iff.mpr hnodup, ?_, ?_⟩
  · intro x
    rw [hperm.mem_iff, hkeys, foldl_makeSet_keys_mem]
    simp
  · intro c hc
    rcases List.mem_map.mp hc with ⟨e, he, rfl⟩
    exact clusterFold_vals_ne_nil _ _ [] (by simp) e he

/-! ## C7: union-find computes the connectivity partition -/

/-- `x` reaches `r` in `n` parent steps and `r` is a root. -/
def chainTo (p : String → String) (x r : String) (n : ℕ) : Prop :=
  p^[n] x = r ∧ p r = r

/-- `x`'s parent chain terminates at the root `r`. -/
def Reaches (p : String → String) (x r : String) : Prop :=
  ∃ n, chainTo p x r n

/-- Every parent chain terminates (the forest is acyclic). -/
def Rooted (p : String → String) : Prop := ∀ x, ∃ r, Reaches p x r

/-- `x` and `y` lie in the same tree. -/
def sameRoot (p : String → String) (x y : String) : Prop :=
  ∃ r, Reaches p x r ∧ Reaches p y r

/-- Connectivity: the equivalence closure of a relation. -/
inductive Conn (R : String → String → Prop) : String → String → Prop
  | rel : ∀ x y, R x y → Conn R x y
  | refl : ∀ x, Conn R x x
  | symm : ∀ x y, Conn R x y → Conn R y x
  | trans : ∀ x y z, Conn R x y → Conn R y z → Conn R x z

/-- The pair relation of a near-duplicates list. -/
def ndRel (nd : List (String × String × ℚ)) (x y : String) : Prop :=
  ∃ s, (x, y, s) ∈ nd

theorem reaches_unique (p : String → String) (x r r' : String)
    (h : Reaches p x r) (h' : Reaches p x r') : r = r' := by
  rcases h with ⟨n, hn, hfix⟩
  rcases h' with ⟨n', hn', hfix'⟩
  rcases le_total n n' with hle | hle
  · obtain ⟨d, rfl⟩ : ∃ d, n' = d + n := ⟨n' - n, by omega⟩
    rw [Function.iterate_add_apply, hn, Function.iterate_fixed hfix] at hn'
    exact hn'
  · obtain ⟨d, rfl⟩ : ∃ d, n = d + n' := ⟨n - n', by omega⟩
    rw [Function.iterate_add_apply, hn', Function.iterate_fixed hfix'] at hn
    exact hn.symm

theorem chainTo_succ (p : String → String) (x r : String) (n : ℕ)
    (h : chainTo p x r (n + 1)) : chainTo p (p x) r n := by
  rcases h with ⟨hn, hfix⟩
  rw [Function.iterate_succ_apply] at hn
  exact ⟨hn, hfix⟩

theorem chainTo_of_next (p : String → String) (x r : String) (n : ℕ)
    (h : chainTo p (p x) r n) : chainTo p x r (n + 1) := by
  rcases h with ⟨hn, hfix⟩
  rw [← Function.iterate_succ_apply] at hn
  exact ⟨hn, hfix⟩

theorem chainTo_zero_root (p : String → String) (x r : String)
    (h : chainTo p x r 0) : r = x ∧ p x = x := by
  rcases h with ⟨hn, hfix⟩
  simp only [Function.iterate_zero, id] at hn
  subst hn
  exact ⟨rfl, hfix⟩

theorem chainTo_root_of_fix (p : String → String) (x r : String) (n : ℕ)
    (hx : p x = x) (h : chainTo p x r n) : r = x := by
  rcases h with ⟨hn, -⟩
  rw [Function.iterate_fixed hx] at hn
  exact hn.symm

/-- Path halving (`parent[x] = parent[parent[x]]`) shortens chains and
preserves every node's root. -/
theorem chainTo_halve (p : String → String) (x : String) :
    ∀ n y r, chainTo p y r n →
      ∃ m ≤ n, chainTo (upd p x (p (p x))) y r m := by
  intro n
  induction n using Nat.strong_induction_on with
  | _ n ih =>
    intro y r h
    by_cases hy : p y = y
    · have hr : r = y := chainTo_root_of_fix p y r n hy h
      refine ⟨0, Nat.zero_le n, ?_, ?_⟩
      · simp only [Function.iterate_zero, id]
        exact hr.symm
      · rw [hr]
        unfold upd
        by_cases hxy : y = x
        · rw [if_pos hxy, ← hxy, hy, hy]
        · rw [if_neg hxy]
          exact hy
    · have hn1 : 1 ≤ n := by
        rcases Nat.eq_zero_or_pos n with rfl | h1
        · rcases chainTo_zero_root p y r h with ⟨-, hfix⟩
          exact absurd hfix hy
        · exact h1
      obtain ⟨n', rfl⟩ : ∃ n', n = n' + 1 := ⟨n - 1, by omega⟩
      have h1 : chainTo p (p y) r n' := chainTo_succ p y r n' h
      by_cases hxy : y = x
      · have hstep : upd p x (p (p x)) y = p (p y) := by
          unfold upd
          rw [if_pos hxy, hxy]
        cases n' with
        | zero =>
          rcases chainTo_zero_root p (p y) r h1 with ⟨hr, hfix⟩
          refine ⟨1, by omega, ?_, ?_⟩
          · rw [Function.iterate_one, hstep, hfix, hr]
          · have hry : ¬ r = x := by
              rw [hr, ← hxy]
              exact hy
            unfold upd
            rw [if_neg hry]
            exact h.2
        | succ n'' =>
          have h2 : chainTo p (p (p y)) r n'' := chainTo_succ p (p y) r n'' h1
          obtain ⟨m, hm, hchain⟩ := ih n'' (by omega) (p (p y)) r h2
          refine ⟨m + 1, by omega, ?_, hchain.2⟩
          rw [Function.iterate_succ_apply, hstep]
          exact hchain.1
      · have hstep : upd p x (p (p x)) y = p y := by
          unfold upd
          rw [if_neg hxy]
        obtain ⟨m, hm, hchain⟩ := ih n' (by omega) (p y) r h1
        refine ⟨m + 1, by omega, ?_, hchain.2⟩
        rw [Function.iterate_succ_apply, hstep]
        exact hchain.1

/-- Specification of the `find` loop body: run with enough fuel, it returns
the root of `x`, preserves every node's root, touches nothing outside the
key set `K`, and keeps parents of keys inside `K`. -/
theorem findAux_spec (K : List String) :
    ∀ (fuel : ℕ) (p : String → String) (x r : String) (n : ℕ),
      (∀ z, z ∉ K → p z = z) → (∀ z, z ∈ K → p z ∈ K) →
      chainTo p x r n → n ≤ fuel →
      (findAux p x fuel).2 = r ∧
      (∀ y s m, chainTo p y s m →
        ∃ m', chainTo (findAux p x fuel).1 y s m') ∧
      (∀ z, z ∉ K → (findAux p x fuel).1 z = z) ∧
      (∀ z, z ∈ K → (findAux p x fuel).1 z ∈ K) := by
  intro fuel
  induction fuel with
  | zero =>
    intro p x r n hA hB h hle
    have hn : n = 0 := by omega
    subst hn
    rcases chainTo_zero_root p x r h with ⟨hr, -⟩
    exact ⟨hr.symm, fun y s m hm => ⟨m, hm⟩, hA, hB⟩
  | succ fuel ihf =>
    intro p x r n hA hB h hle
    by_cases hx : p x = x
    · have hist : findAux p x (fuel + 1) = (p, x) := by
        unfold findAux
        rw [if_pos hx]
      rw [hist]
      have hr : r = x := chainTo_root_of_fix p x r n hx h
      exact ⟨hr.symm, fun y s m hm => ⟨m, hm⟩, hA, hB⟩
    · have hist : findAux p x (fuel + 1) =
          findAux (upd p x (p (p x))) (p (p x)) fuel := by
        show (if p x = x then (p, x)
          else findAux (upd p x (p (p x))) (p (p x)) fuel) = _
        rw [if_neg hx]
      rw [hist]
      have hxK : x ∈ K := by
        by_contra hc
        exact hx (hA x hc)
      have hA' : ∀ z, z ∉ K → upd p x (p (p x)) z = z := by
        intro z hz
        have hzx : ¬ z = x := fun hc => hz (hc ▸ hxK)
        unfold upd
        rw [if_neg hzx]
        exact hA z hz
      have hB' : ∀ z, z ∈ K → upd p x (p (p x)) z ∈ K := by
        intro z hz
        unfold upd
        by_cases hzx : z = x
        · rw [if_pos hzx]
          exact hB _ (hB _ hxK)
        · rw [if_neg hzx]
          exact hB z hz
      have hn1 : 1 ≤ n := by
        rcases Nat.eq_zero_or_pos n with rfl | h1
        · rcases chainTo_zero_root p x r h with ⟨-, hfix⟩
          exact absurd hfix hx
        · exact h1
      obtain ⟨n', rfl⟩ : ∃ n', n = n' + 1 := ⟨n - 1, by omega⟩
      have h1 : chainTo p (p x) r n' := chainTo_succ p x r n' h
      have hpx : upd p x (p (p x)) (p x) = p (p x) := by
        unfold upd
        rw [if_neg hx]
      obtain ⟨m, hm, hchain⟩ := chainTo_halve p x n' (p x) r h1
      have hgchain : ∃ m' ≤ m, chainTo (upd p x (p (p x))) (p (p x)) r m' := by
        cases m with
        | zero =>
          rcases chainTo_zero_root (upd p x (p (p x))) (p x) r hchain
            with ⟨hr, hfix⟩
          refine ⟨0, le_refl 0, ?_, ?_⟩
          · simp only [Function.iterate_zero, id]
            rw [← hpx, hfix, hr]
          · rw [hr]
            exact hfix
        | succ m'' =>
          refine ⟨m'', by omega, ?_⟩
          have hnext := chainTo_succ (upd p x (p (p x))) (p x) r m'' hchain
          rwa [hpx] at hnext
      obtain ⟨m', hm', hgc⟩ := hgchain
      have hmfuel : m' ≤ fuel := by omega
      obtain ⟨hres, hpres, hA'', hB''⟩ :=
        ihf (upd p x (p (p x))) (p (p x)) r m' hA' hB' hgc hmfuel
      refine ⟨hres, ?_, hA'', hB''⟩
      intro y s mm hmm
      obtain ⟨m2, -, hc2⟩ := chainTo_halve p x mm y s hmm
      exact hpres y s m2 hc2

/-- In a state whose parent map is the identity off the key list, a
terminating chain reaches its root within `K.length` steps: the nodes
strictly before the root are pairwise distinct non-roots, all keys. -/
theorem reaches_bound (p : String → String) (K : List String)
    (hA : ∀ z, z ∉ K → p z = z) (x r : String) (h : Reaches p x r) :
    ∃ n ≤ K.length, chainTo p x r n := by
  have hP : ∃ k, p (p^[k] x) = p^[k] x := by
    rcases h with ⟨n, hn, hfix⟩
    exact ⟨n, by rw [hn]; exact hfix⟩
  have hd : p (p^[Nat.find hP] x) = p^[Nat.find hP] x := Nat.find_spec hP
  have hchain : chainTo p x (p^[Nat.find hP] x) (Nat.find hP) := ⟨rfl, hd⟩
  have hr : r = p^[Nat.find hP] x :=
    reaches_unique p x r _ h ⟨Nat.find hP, hchain⟩
  have hmem : ∀ i < Nat.find hP, p^[i] x ∈ K := by
    intro i hi
    by_contra hc
    exact Nat.find_min hP hi (hA _ hc)
  have key : ∀ i j, i < j → j < Nat.find hP → p^[i] x ≠ p^[j] x := by
    intro i j hij hjd heq
    have e1 : Nat.find hP - (j - i) = (Nat.find hP - j) + i := by omega
    have e2 : Nat.find hP = (Nat.find hP - j) + j := by omega
    have h1 : p^[Nat.find hP - (j - i)] x = p^[Nat.find hP] x := by
      rw [e1, Function.iterate_add_apply, heq, ← Function.iterate_add_apply,
        ← e2]
    have h2 : p (p^[Nat.find hP - (j - i)] x) = p^[Nat.find hP - (j - i)] x := by
      rw [h1]
      exact hd
    exact Nat.find_min hP (show Nat.find hP - (j - i) < Nat.find hP by omega) h2
  have hcard : Nat.find hP ≤ K.length := by
    have hc1 : (Finset.range (Nat.find hP)).card ≤ K.toFinset.card := by
      apply Finset.card_le_card_of_injOn (fun i => p^[i] x)
      · intro i hi
        exact List.mem_toFinset.mpr (hmem i (Finset.mem_range.mp hi))
      · intro i hi j hj hij
        simp only [Finset.coe_range, Set.mem_Iio] at hi hj
        rcases Nat.lt_trichotomy i j with h' | h' | h'
        · exact absurd hij (key i j h' hj)
        · exact h'
        · exact absurd hij.symm (key j i h' hi)
    rw [Finset.card_range] at hc1
    exact le_trans hc1 (List.toFinset_card_le K)
  exact ⟨Nat.find hP, hcard, hr ▸ hchain⟩

/-- Specification of `find`: it returns the root of `x`, preserves keys and
every node's root, and maintains the dict invariants. -/
theorem ufFind_spec (uf : UF) (x r : String)
    (hA : ∀ z, z ∉ uf.keys → uf.parent z = z)
    (hB : ∀ z, z ∈ uf.keys → uf.parent z ∈ uf.keys)
    (h : Reaches uf.parent x r) :
    (ufFind uf x).2 = r ∧
    (ufFind uf x).1.keys = uf.keys ∧
    (∀ y s, Reaches uf.parent y s → Reaches (ufFind uf x).1.parent y s) ∧
    (∀ z, z ∉ uf.keys → (ufFind uf x).1.parent z = z) ∧
    (∀ z, z ∈ uf.keys → (ufFind uf x).1.parent z ∈ uf.keys) := by
  obtain ⟨n, hn, hchain⟩ := reaches_bound uf.parent uf.keys hA x r h
  obtain ⟨h1, h2, h3, h4⟩ :=
    findAux_spec uf.keys uf.keys.length uf.parent x r n hA hB hchain hn
  refine ⟨h1, rfl, ?_, h3, h4⟩
  rintro y s ⟨m, hm⟩
  exact h2 y s m hm

theorem rooted_of_preserve (p p' : String → String) (hR : Rooted p)
    (hpres : ∀ y s, Reaches p y s → Reaches p' y s) : Rooted p' :=
  fun y => (hR y).imp (fun s hs => hpres y s hs)

theorem sameRoot_iff_of_preserve (p p' : String → String) (hR : Rooted p)
    (hpres : ∀ y s, Reaches p y s → Reaches p' y s) (x y : String) :
    sameRoot p' x y ↔ sameRoot p x y := by
  constructor
  · rintro ⟨r, hx, hy⟩
    obtain ⟨rx, hrx⟩ := hR x
    obtain ⟨ry, hry⟩ := hR y
    have h1 : rx = r := reaches_unique p' x rx r (hpres x rx hrx) hx
    have h2 : ry = r := reaches_unique p' y ry r (hpres y ry hry) hy
    refine ⟨rx, hrx, ?_⟩
    have hxy : ry = rx := h2.trans h1.symm
    rwa [hxy] at hry
  · rintro ⟨r, hx, hy⟩
    exact ⟨r, hpres x r hx, hpres y r hy⟩

theorem chain_root_mem (p : String → String) (K : List String)
    (hB : ∀ z, z ∈ K → p z ∈ K) (x r : String) (n : ℕ) (hx : x ∈ K)
    (h : chainTo p x r n) : r ∈ K := by
  have hiter : ∀ i, p^[i] x ∈ K := by
    intro i
    induction i with
    | zero => simpa
    | succ i ih =>
      rw [Function.iterate_succ_apply']
      exact hB _ ih
  rcases h with ⟨hn, -⟩
  rw [← hn]
  exact hiter n

/-- Re-pointing the root `ry` at the root `rx` (the `union` write) sends
every node whose root was `ry` to `rx` and leaves every other root alone. -/
theorem reaches_upd_root (p : String → String) (rx ry : String)
    (hrx : p rx = rx) (hry : p ry = ry) (hne : rx ≠ ry) (y r : String)
    (h : Reaches p y r) :
    Reaches (upd p ry rx) y (if r = ry then rx else r) := by
  rcases h with ⟨n0, hn0, hfix0⟩
  have hP : ∃ k, p (p^[k] y) = p^[k] y := ⟨n0, by rw [hn0]; exact hfix0⟩
  have hd : p (p^[Nat.find hP] y) = p^[Nat.find hP] y := Nat.find_spec hP
  have hr : r = p^[Nat.find hP] y :=
    reaches_unique p y r _ ⟨n0, hn0, hfix0⟩ ⟨Nat.find hP, rfl, hd⟩
  have htrans : ∀ i, i ≤ Nat.find hP → (upd p ry rx)^[i] y = p^[i] y := by
    intro i
    induction i with
    | zero => intro _; rfl
    | succ i ih =>
      intro hi
      rw [Function.iterate_succ_apply', Function.iterate_succ_apply',
        ih (by omega)]
      have hiy : ¬ p^[i] y = ry := by
        intro hc
        exact Nat.find_min hP (show i < Nat.find hP by omega)
          (by rw [hc, hry])
      unfold upd
      rw [if_neg hiy]
  by_cases hcase : r = ry
  · rw [if_pos hcase]
    refine ⟨Nat.find hP + 1, ?_, ?_⟩
    · rw [Function.iterate_succ_apply', htrans _ (le_refl _), ← hr, hcase]
      unfold upd
      rw [if_pos rfl]
    · unfold upd
      rw [if_neg hne]
      exact hrx
  · rw [if_neg hcase]
    refine ⟨Nat.find hP, ?_, ?_⟩
    · rw [htrans _ (le_refl _)]
      exact hr.symm
    · unfold upd
      rw [if_neg hcase]
      exact hfix0

theorem conn_mono (R S : String → String → Prop)
    (h : ∀ x y, R x y → S x y) (x y : String) (hc : Conn R x y) :
    Conn S x y := by
  induction hc with
  | rel a b hab => exact Conn.rel a b (h a b hab)
  | refl a => exact Conn.refl a
  | symm a b _ ih => exact Conn.symm a b ih
  | trans a b c _ _ ih1 ih2 => exact Conn.trans a b c ih1 ih2

theorem conn_congr (R S : String → String → Prop)
    (h : ∀ x y, R x y ↔ S x y) (x y : String) :
    Conn R x y ↔ Conn S x y :=
  ⟨conn_mono R S (fun a b => (h a b).mp) x y,
   conn_mono S R (fun a b => (h a b).mpr) x y⟩

/-- Adding one edge `(a, b)` to a relation extends its equivalence closure
in exactly the expected way. -/
theorem conn_snoc (R : String → String → Prop) (a b : String) :
    ∀ x y, Conn (fun u v => R u v ∨ (u = a ∧ v = b)) x y ↔
      Conn R x y ∨ (Conn R x a ∧ Conn R b y) ∨
        (Conn R x b ∧ Conn R a y) := by
  intro x y
  constructor
  · intro h
    induction h with
    | rel u v huv =>
      rcases huv with huv | ⟨rfl, rfl⟩
      · exact Or.inl (Conn.rel u v huv)
      · exact Or.inr (Or.inl ⟨Conn.refl _, Conn.refl _⟩)
    | refl u => exact Or.inl (Conn.refl u)
    | symm u v _ ih =>
      rcases ih with h1 | ⟨h1, h2⟩ | ⟨h1, h2⟩
      · exact Or.inl (Conn.symm _ _ h1)
      · exact Or.inr (Or.inr ⟨Conn.symm _ _ h2, Conn.symm _ _ h1⟩)
      · exact Or.inr (Or.inl ⟨Conn.symm _ _ h2, Conn.symm _ _ h1⟩)
    | trans u v w _ _ ih1 ih2 =>
      rcases ih1 with h1 | ⟨h1, h2⟩ | ⟨h1, h2⟩ <;>
        rcases ih2 with h3 | ⟨h3, h4⟩ | ⟨h3, h4⟩
      · exact Or.inl (Conn.trans _ _ _ h1 h3)
      · exact Or.inr (Or.inl ⟨Conn.trans _ _ _ h1 h3, h4⟩)
      · exact Or.inr (Or.inr ⟨Conn.trans _ _ _ h1 h3, h4⟩)
      · exact Or.inr (Or.inl ⟨h1, Conn.trans _ _ _ h2 h3⟩)
      · exact Or.inl (Conn.trans _ _ _ h1
          (Conn.trans _ _ _ (Conn.symm _ _ (Conn.trans _ _ _ h2 h3)) h4))
      · exact Or.inl (Conn.trans _ _ _ h1 h4)
      · exact Or.inr (Or.inr ⟨h1, Conn.trans _ _ _ h2 h3⟩)
      · exact Or.inl (Conn.trans _ _ _ h1 h4)
      · exact Or.inl (Conn.trans _ _ _ h1
          (Conn.trans _ _ _ (Conn.symm _ _ (Conn.trans _ _ _ h2 h3)) h4))
  · rintro (h | ⟨h1, h2⟩ | ⟨h1, h2⟩)
    · exact conn_mono _ _ (fun u v huv => Or.inl huv) x y h
    · refine Conn.trans _ _ _
        (conn_mono _ _ (fun u v huv => Or.inl huv) x a h1)
        (Conn.trans _ _ _ (Conn.rel a b (Or.inr ⟨rfl, rfl⟩))
          (conn_mono _ _ (fun u v huv => Or.inl huv) b y h2))
    · refine Conn.trans _ _ _
        (conn_mono _ _ (fun u v huv => Or.inl huv) x b h1)
        (Conn.trans _ _ _ (Conn.symm _ _ (Conn.rel a b (Or.inr ⟨rfl, rfl⟩)))
          (conn_mono _ _ (fun u v huv => Or.inl huv) a y h2))

theorem reaches_root_fix (p : String → String) (x r : String)
    (h : Reaches p x r) : p r = r := by
  rcases h with ⟨n, -, hfix⟩
  exact hfix

theorem sameRoot_iff_root_eq (p : String → String) (x y rx ry : String)
    (hx : Reaches p x rx) (hy : Reaches p y ry) :
    sameRoot p x y ↔ rx = ry := by
  constructor
  · rintro ⟨r, hx', hy'⟩
    rw [reaches_unique p x rx r hx hx', reaches_unique p y ry r hy hy']
  · rintro rfl
    exact ⟨rx, hx, hy⟩

/-- The invariant the union stage maintains: the parent dict is the identity
off its keys, maps keys to keys, its forest is acyclic, and two nodes share
a root exactly when the processed relation connects them. -/
def UFInv (uf : UF) (R : String → String → Prop) : Prop :=
  (∀ z, z ∉ uf.keys → uf.parent z = z) ∧
  (∀ z, z ∈ uf.keys → uf.parent z ∈ uf.keys) ∧
  Rooted uf.parent ∧
  (∀ x y, sameRoot uf.parent x y ↔ Conn R x y)

theorem UFInv_congr (uf : UF) (R S : String → String → Prop)
    (h : UFInv uf R) (hRS : ∀ x y, R x y ↔ S x y) : UFInv uf S := by
  obtain ⟨h1, h2, h3, h4⟩ := h
  exact ⟨h1, h2, h3, fun x y => (h4 x y).trans (conn_congr R S hRS x y)⟩

theorem makeSet_parent_id (uf : UF) (x : String)
    (h : ∀ z, uf.parent z = z) : ∀ z, (makeSet uf x).parent z = z := by
  intro z
  unfold makeSet
  by_cases hx : x ∈ uf.keys
  · rw [if_pos hx]
    exact h z
  · rw [if_neg hx]
    show upd uf.parent x x z = z
    unfold upd
    by_cases hz : z = x
    · rw [if_pos hz, hz]
    · rw [if_neg hz]
      exact h z

theorem foldl_makeSet_parent_id (nd : List (String × String × ℚ)) (uf : UF)
    (h : ∀ z, uf.parent z = z) :
    ∀ z, (nd.foldl (fun uf t => makeSet (makeSet uf t.1) t.2.1) uf).parent z
      = z := by
  induction nd generalizing uf with
  | nil => exact h
  | cons t rest ih =>
    rw [List.foldl_cons]
    exact ih _ (makeSet_parent_id _ _ (makeSet_parent_id _ _ h))

theorem reaches_id (p : String → String) (h : ∀ z, p z = z) (x r : String) :
    Reaches p x r ↔ r = x := by
  constructor
  · rintro ⟨n, hn, -⟩
    rw [Function.iterate_fixed (h x) n] at hn
    exact hn.symm
  · rintro rfl
    exact ⟨0, rfl, h _⟩

theorem conn_false (x y : String) : Conn (fun _ _ => False) x y ↔ x = y := by
  constructor
  · intro h
    induction h with
    | rel a b hab => exact absurd hab not_false
    | refl a => rfl
    | symm a b _ ih => exact ih.symm
    | trans a b c _ _ ih1 ih2 => exact ih1.trans ih2
  · rintro rfl
    exact Conn.refl x

theorem makeSet_stage_inv (nd : List (String × String × ℚ)) :
    UFInv (nd.foldl (fun uf t => makeSet (makeSet uf t.1) t.2.1) ⟨[], id⟩)
      (fun _ _ => False) := by
  have hid := foldl_makeSet_parent_id nd ⟨[], id⟩ (fun z => rfl)
  refine ⟨fun z _ => hid z, fun z hz => by rw [hid z]; exact hz, ?_, ?_⟩
  · intro x
    exact ⟨x, (reaches_id _ hid x x).mpr rfl⟩
  · intro x y
    rw [conn_false]
    constructor
    · rintro ⟨r, hx, hy⟩
      rw [reaches_id _ hid] at hx hy
      rw [← hx, ← hy]
    · rintro rfl
      exact ⟨x, (reaches_id _ hid x x).mpr rfl,
        (reaches_id _ hid x x).mpr rfl⟩

/-- One `union(a, b)` call extends the represented relation by the edge
`(a, b)`. -/
theorem ufUnion_inv (uf : UF) (R : String → String → Prop) (a b : String)
    (hinv : UFInv uf R) (ha : a ∈ uf.keys) (hb : b ∈ uf.keys) :
    UFInv (ufUnion uf a b) (fun u v => R u v ∨ (u = a ∧ v = b)) := by
  obtain ⟨hA, hB, hR, hE⟩ := hinv
  obtain ⟨ra, hra⟩ := hR a
  obtain ⟨f1, f2, f3, f4, f5⟩ := ufFind_spec uf a ra hA hB hra
  have hA2 : ∀ z, z ∉ (ufFind uf a).1.keys → (ufFind uf a).1.parent z = z := by
    rw [f2]
    exact f4
  have hB2 : ∀ z, z ∈ (ufFind uf a).1.keys →
      (ufFind uf a).1.parent z ∈ (ufFind uf a).1.keys := by
    rw [f2]
    exact f5
  have hR2 : Rooted (ufFind uf a).1.parent :=
    rooted_of_preserve _ _ hR f3
  obtain ⟨rb, hrb⟩ := hR2 b
  obtain ⟨g1, g2, g3, g4, g5⟩ := ufFind_spec (ufFind uf a).1 b rb hA2 hB2 hrb
  have hkeys3 : (ufFind (ufFind uf a).1 b).1.keys = uf.keys := g2.trans f2
  have hA3 : ∀ z, z ∉ uf.keys →
      (ufFind (ufFind uf a).1 b).1.parent z = z := by
    intro z hz
    exact g4 z (by rw [g2] at *; rw [f2]; exact hz)
  have hB3 : ∀ z, z ∈ uf.keys →
      (ufFind (ufFind uf a).1 b).1.parent z ∈ uf.keys := by
    intro z hz
    have := g5 z (by rw [f2]; exact hz)
    rwa [f2] at this
  have hR3 : Rooted (ufFind (ufFind uf a).1 b).1.parent :=
    rooted_of_preserve _ _ hR2 g3
  have hpres13 : ∀ y s, Reaches uf.parent y s →
      Reaches (ufFind (ufFind uf a).1 b).1.parent y s :=
    fun y s hs => g3 y s (f3 y s hs)
  have hE3 : ∀ x y, sameRoot (ufFind (ufFind uf a).1 b).1.parent x y ↔
      Conn R x y := by
    intro x y
    rw [sameRoot_iff_of_preserve _ _ hR hpres13 x y]
    exact hE x y
  have hra3 : Reaches (ufFind (ufFind uf a).1 b).1.parent a ra :=
    hpres13 a ra hra
  have hrb3 : Reaches (ufFind (ufFind uf a).1 b).1.parent b rb := g3 b rb hrb
  have hraK : ra ∈ uf.keys := by
    rcases hra with ⟨n, hc⟩
    exact chain_root_mem uf.parent uf.keys hB a ra n ha hc
  have hrbK : rb ∈ uf.keys := by
    rcases hrb with ⟨n, hc⟩
    exact chain_root_mem (ufFind uf a).1.parent uf.keys f5 b rb n hb hc
  have hfa : (ufFind uf a).2 = ra := f1
  have hfb : (ufFind (ufFind uf a).1 b).2 = rb := g1
  unfold ufUnion
  dsimp only
  by_cases hne : (ufFind uf a).2 ≠ (ufFind (ufFind uf a).1 b).2
  · rw [if_pos hne]
    rw [hfa, hfb] at hne ⊢
    have hrarb : ra ≠ rb := fun hc => hne (hc ▸ rfl)
    have hfixra : (ufFind (ufFind uf a).1 b).1.parent ra = ra :=
      reaches_root_fix _ a ra hra3
    have hfixrb : (ufFind (ufFind uf a).1 b).1.parent rb = rb :=
      reaches_root_fix _ b rb hrb3
    have hcollapse : ∀ y r, Reaches (ufFind (ufFind uf a).1 b).1.parent y r →
        Reaches (upd (ufFind (ufFind uf a).1 b).1.parent rb ra) y
          (if r = rb then ra else r) :=
      fun y r h => reaches_upd_root _ ra rb hfixra hfixrb hrarb y r h
    refine ⟨?_, ?_, ?_, ?_⟩
    · intro z hz
      rw [g2, f2] at hz
      have hzrb : ¬ z = rb := fun hc => hz (hc ▸ hrbK)
      show upd _ rb ra z = z
      unfold upd
      rw [if_neg hzrb]
      exact hA3 z (by rw [g2, f2] at *; exact hz)
    · intro z hz
      rw [g2, f2] at hz ⊢
      show upd _ rb ra z ∈ uf.keys
      unfold upd
      by_cases hzrb : z = rb
      · rw [if_pos hzrb]
        exact hraK
      · rw [if_neg hzrb]
        exact hB3 z hz
    · intro y
      obtain ⟨r, hr⟩ := hR3 y
      exact ⟨_, hcollapse y r hr⟩
    · intro x y
      obtain ⟨rx0, hrx0⟩ := hR3 x
      obtain ⟨ry0, hry0⟩ := hR3 y
      have hx4 := hcollapse x rx0 hrx0
      have hy4 := hcollapse y ry0 hry0
      rw [sameRoot_iff_root_eq _ x y _ _ hx4 hy4]
      rw [conn_snoc R a b x y]
      have hxa : rx0 = ra ↔ Conn R x a := by
        rw [← sameRoot_iff_root_eq _ x a rx0 ra hrx0 hra3]
        exact hE3 x a
      have hxb : rx0 = rb ↔ Conn R x b := by
        rw [← sameRoot_iff_root_eq _ x b rx0 rb hrx0 hrb3]
        exact hE3 x b
      have hya : ry0 = ra ↔ Conn R y a := by
        rw [← sameRoot_iff_root_eq _ y a ry0 ra hry0 hra3]
        exact hE3 y a
      have hyb : ry0 = rb ↔ Conn R y b := by
        rw [← sameRoot_iff_root_eq _ y b ry0 rb hry0 hrb3]
        exact hE3 y b
      have hxy : rx0 = ry0 ↔ Conn R x y := by
        rw [← sameRoot_iff_root_eq _ x y rx0 ry0 hrx0 hry0]
        exact hE3 x y
      constructor
      · intro hcc
        by_cases hx : rx0 = rb <;> by_cases hy : ry0 = rb
        · exact Or.inl (hxy.mp (hx.trans hy.symm))
        · rw [if_pos hx, if_neg hy] at hcc
          exact Or.inr (Or.inr ⟨hxb.mp hx,
            Conn.symm _ _ (hya.mp hcc.symm)⟩)
        · rw [if_neg hx, if_pos hy] at hcc
          exact Or.inr (Or.inl ⟨hxa.mp hcc,
            Conn.symm _ _ (hyb.mp hy)⟩)
        · rw [if_neg hx, if_neg hy] at hcc
          exact Or.inl (hxy.mp hcc)
      · rintro (hcc | ⟨h1, h2⟩ | ⟨h1, h2⟩)
        · rw [hxy.mpr hcc]
        · have e1 : rx0 = ra := hxa.mpr h1
          have e2 : ry0 = rb := hyb.mpr (Conn.symm _ _ h2)
          rw [e1, e2, if_neg hrarb, if_pos rfl]
        · have e1 : rx0 = rb := hxb.mpr h1
          have e2 : ry0 = ra := hya.mpr (Conn.symm _ _ h2)
          rw [e1, e2, if_pos rfl, if_neg hrarb]
  · rw [if_neg hne]
    push_neg at hne
    rw [hfa, hfb] at hne
    have hab : Conn R a b := by
      rw [← hE3 a b]
      exact ⟨ra, hra3, hne ▸ hrb3⟩
    refine ⟨?_, ?_, hR3, ?_⟩
    · intro z hz
      exact hA3 z (by rw [g2, f2] at hz; exact hz)
    · intro z hz
      rw [g2, f2] at hz ⊢
      exact hB3 z hz
    · intro x y
      rw [hE3 x y, conn_snoc R a b x y]
      constructor
      · exact Or.inl
      · rintro (hcc | ⟨h1, h2⟩ | ⟨h1, h2⟩)
        · exact hcc
        · exact Conn.trans _ _ _ h1 (Conn.trans _ _ _ hab h2)
        · exact Conn.trans _ _ _ h1
            (Conn.trans _ _ _ (Conn.symm _ _ hab) h2)

theorem foldl_union_inv :
    ∀ (l : List (String × String × ℚ)) (uf : UF) (R : String → String → Prop),
      UFInv uf R → (∀ t ∈ l, t.1 ∈ uf.keys ∧ t.2.1 ∈ uf.keys) →
      UFInv (l.foldl (fun uf t => ufUnion uf t.1 t.2.1) uf)
        (fun u v => R u v ∨ ndRel l u v) := by
  intro l
  induction l with
  | nil =>
    intro uf R hinv _
    refine UFInv_congr uf R _ hinv ?_
    intro x y
    simp [ndRel]
  | cons t rest ih =>
    intro uf R hinv hmem
    rw [List.foldl_cons]
    have h1 : UFInv (ufUnion uf t.1 t.2.1)
        (fun u v => R u v ∨ (u = t.1 ∧ v = t.2.1)) :=
      ufUnion_inv uf R t.1 t.2.1 hinv
        (hmem t (List.mem_cons_self t rest)).1
        (hmem t (List.mem_cons_self t rest)).2
    have h2 := ih (ufUnion uf t.1 t.2.1) _ h1
      (fun t' ht' => by
        rw [ufUnion_keys]
        exact hmem t' (List.mem_cons_of_mem t ht'))
    refine UFInv_congr _ _ _ h2 ?_
    intro u v
    unfold ndRel
    constructor
    · rintro ((h | ⟨rfl, rfl⟩) | ⟨s, hs⟩)
      · exact Or.inl h
      · exact Or.inr ⟨t.2.2, by simp⟩
      · exact Or.inr ⟨s, List.mem_cons_of_mem t hs⟩
    · rintro (h | ⟨s, hs⟩)
      · exact Or.inl (Or.inl h)
      · rcases List.mem_cons.mp hs with heq | hs'
        · refine Or.inl (Or.inr ?_)
          rw [← heq]
          exact ⟨rfl, rfl⟩
        · exact Or.inr ⟨s, hs'⟩

/-- The state after the make-set loop. -/
def ufStage1 (nd : List (String × String × ℚ)) : UF :=
  nd.foldl (fun uf t => makeSet (makeSet uf t.1) t.2.1) ⟨[], id⟩

/-- The state after the union loop. -/
def ufStage2 (nd : List (String × String × ℚ)) : UF :=
  nd.foldl (fun uf t => ufUnion uf t.1 t.2.1) (ufStage1 nd)

theorem group_similar_images_eq (nd : List (String × String × ℚ)) :
    group_similar_images nd =
      (((ufStage2 nd).keys.foldl clusterStep (ufStage2 nd, [])).2).map
        Prod.snd := rfl

theorem ufStage2_inv (nd : List (String × String × ℚ)) :
    UFInv (ufStage2 nd) (ndRel nd) := by
  have h1 := makeSet_stage_inv nd
  have h2 := foldl_union_inv nd (ufStage1 nd) _ h1 ?_
  · refine UFInv_congr _ _ _ h2 ?_
    intro u v
    simp
  · intro t ht
    constructor
    · rw [ufStage1, foldl_makeSet_keys_mem]
      exact Or.inr ⟨t, ht, Or.inl rfl⟩
    · rw [ufStage1, foldl_makeSet_keys_mem]
      exact Or.inr ⟨t, ht, Or.inr rfl⟩

theorem ufStage2_keys (nd : List (String × String × ℚ)) :
    (ufStage2 nd).keys = (ufStage1 nd).keys :=
  foldl_union_keys nd (ufStage1 nd)

/-- The final root assignment: what `find` returns on the final state. -/
def rootOf (nd : List (String × String × ℚ)) (x : String) : String :=
  (ufFind (ufStage2 nd) x).2

theorem rootOf_reaches (nd : List (String × String × ℚ)) (x : String) :
    Reaches (ufStage2 nd).parent x (rootOf nd x) := by
  obtain ⟨hA, hB, hR, hE⟩ := ufStage2_inv nd
  obtain ⟨r, hr⟩ := hR x
  obtain ⟨h1, -, -, -, -⟩ := ufFind_spec _ x r hA hB hr
  rw [rootOf, h1]
  exact hr

/-- The cluster loop groups each key by the root `find` returns, which is
the fixed root assignment of the final state. -/
theorem clusterFold_snd (rt : String → String) :
    ∀ (imgs : List String) (uf : UF) (cl : List (String × List String)),
      (∀ z, z ∉ uf.keys → uf.parent z = z) →
      (∀ z, z ∈ uf.keys → uf.parent z ∈ uf.keys) →
      (∀ y, Reaches uf.parent y (rt y)) →
      (imgs.foldl clusterStep (uf, cl)).2 =
        imgs.foldl (fun acc img => insertCluster acc (rt img) img) cl := by
  intro imgs
  induction imgs with
  | nil =>
    intro uf cl _ _ _
    rfl
  | cons img rest ih =>
    intro uf cl hA hB hrt
    rw [List.foldl_cons, List.foldl_cons]
    obtain ⟨h1, h2, h3, h4, h5⟩ := ufFind_spec uf img (rt img) hA hB (hrt img)
    have hstep : clusterStep (uf, cl) img =
        ((ufFind uf img).1, insertCluster cl (rt img) img) := by
      unfold clusterStep
      dsimp only
      rw [h1]
    rw [hstep]
    refine ih _ _ ?_ ?_ ?_
    · rw [h2]
      exact h4
    · intro z hz
      rw [h2] at hz ⊢
      exact h5 z hz
    · intro y
      exact h3 y (rt y) (hrt y)

/-- Pure recomputation of the cluster dict from a fixed root assignment. -/
def buildClusters (rt : String → String) (imgs : List String) :
    List (String × List String) :=
  imgs.foldl (fun acc img => insertCluster acc (rt img) img) []

theorem insertCluster_keys (cl : List (String × List String))
    (r0 img : String) :
    (insertCluster cl r0 img).map Prod.fst =
      if r0 ∈ cl.map Prod.fst then cl.map Prod.fst
      else cl.map Prod.fst ++ [r0] := by
  induction cl with
  | nil => simp [insertCluster]
  | cons e rest ih =>
    rcases e with ⟨k, v⟩
    unfold insertCluster
    by_cases hk : k = r0
    · rw [if_pos hk]
      have hmem : r0 ∈ ((k, v) :: rest).map Prod.fst := by
        simp only [List.map_cons, List.mem_cons]
        exact Or.inl hk.symm
      rw [if_pos hmem]
      simp
    · rw [if_neg hk]
      simp only [List.map_cons]
      rw [ih]
      by_cases hr : r0 ∈ rest.map Prod.fst
      · rw [if_pos hr, if_pos (List.mem_cons_of_mem _ hr)]
      · rw [if_neg hr, if_neg ?_]
        · simp
        · intro hc
          rcases List.mem_cons.mp hc with hc' | hc'
          · exact hk hc'.symm
          · exact hr hc'

theorem insertCluster_entry_sub (cl : List (String × List String))
    (r0 img r : String) (xs : List String)
    (hnd : (cl.map Prod.fst).Nodup)
    (h : (r, xs) ∈ insertCluster cl r0 img) :
    ((r, xs) ∈ cl ∧ r ≠ r0) ∨
    (r = r0 ∧ ∃ v, (r0, v) ∈ cl ∧ xs = v ++ [img]) ∨
    (r = r0 ∧ r0 ∉ cl.map Prod.fst ∧ xs = [img]) := by
  induction cl with
  | nil =>
    simp only [insertCluster, List.mem_singleton, Prod.mk.injEq] at h
    exact Or.inr (Or.inr ⟨h.1, by simp, h.2⟩)
  | cons e rest ih =>
    rcases e with ⟨k, v⟩
    simp only [List.map_cons, List.nodup_cons] at hnd
    unfold insertCluster at h
    by_cases hk : k = r0
    · rw [if_pos hk] at h
      rcases List.mem_cons.mp h with heq | h'
      · rcases Prod.mk.injEq .. ▸ heq with ⟨h1, h2⟩
        refine Or.inr (Or.inl ⟨h1.trans hk, v, ?_, h2⟩)
        rw [← hk]
        exact List.mem_cons_self _ _
      · have hr : r ≠ r0 := by
          intro hc
          apply hnd.1
          rw [hk]
          rw [← hc]
          exact List.mem_map.mpr ⟨(r, xs), h', rfl⟩
        exact Or.inl ⟨List.mem_cons_of_mem _ h', hr⟩
    · rw [if_neg hk] at h
      rcases List.mem_cons.mp h with heq | h'
      · rcases Prod.mk.injEq .. ▸ heq with ⟨h1, h2⟩
        subst h1
        subst h2
        exact Or.inl ⟨List.mem_cons_self _ _, fun hc => hk hc⟩
      · rcases ih hnd.2 h' with ⟨hm, hne⟩ | ⟨hr, v', hv', hxs⟩ |
          ⟨hr, hnm, hxs⟩
        · exact Or.inl ⟨List.mem_cons_of_mem _ hm, hne⟩
        · exact Or.inr (Or.inl ⟨hr, v', List.mem_cons_of_mem _ hv', hxs⟩)
        · refine Or.inr (Or.inr ⟨hr, ?_, hxs⟩)
          simp only [List.map_cons, List.mem_cons]
          rintro (hc | hc)
          · exact hk hc.symm
          · exact hnm hc

/-- The cluster dict after processing `imgs`: its keys are exactly the roots
occurring among `imgs` (each once), and the bucket of a root holds exactly
the images with that root, in processing order. -/
def GoodClusters (rt : String → String) (imgs : List String)
    (cl : List (String × List String)) : Prop :=
  (cl.map Prod.fst).Nodup ∧
  (∀ r, r ∈ cl.map Prod.fst ↔ r ∈ imgs.map rt) ∧
  (∀ r xs, (r, xs) ∈ cl → xs = imgs.filter (fun i => decide (rt i = r)))

theorem goodClusters_step (rt : String → String) (imgs : List String)
    (cl : List (String × List String)) (z : String)
    (h : GoodClusters rt imgs cl) :
    GoodClusters rt (imgs ++ [z]) (insertCluster cl (rt z) z) := by
  obtain ⟨hnd, hkeys, hval⟩ := h
  refine ⟨?_, ?_, ?_⟩
  · rw [insertCluster_keys]
    by_cases hmem : rt z ∈ cl.map Prod.fst
    · rw [if_pos hmem]
      exact hnd
    · rw [if_neg hmem]
      simp [List.nodup_append, hnd, hmem]
  · intro r
    rw [insertCluster_keys]
    have htarget : r ∈ (imgs ++ [z]).map rt ↔ r ∈ imgs.map rt ∨ r = rt z := by
      simp
    by_cases hmem : rt z ∈ cl.map Prod.fst
    · rw [if_pos hmem, htarget, hkeys r]
      constructor
      · exact Or.inl
      · rintro (h | rfl)
        · exact h
        · exact (hkeys (rt z)).mp hmem
    · rw [if_neg hmem, htarget]
      simp only [List.mem_append, List.mem_singleton, hkeys r]
  · intro r xs hmem'
    have hsub := insertCluster_entry_sub cl (rt z) z r xs hnd hmem'
    rw [List.filter_append]
    rcases hsub with ⟨hm, hne⟩ | ⟨hr, v, hv, hxs⟩ | ⟨hr, hnm, hxs⟩
    · have hz : ¬ rt z = r := fun hc => hne hc.symm
      have hfz : ([z].filter (fun i => decide (rt i = r))) = [] := by
        simp [hz]
      rw [hfz, List.append_nil]
      exact hval r xs hm
    · subst hr
      have hfz : ([z].filter (fun i => decide (rt i = rt z))) = [z] := by
        simp
      rw [hxs, hval (rt z) v hv, hfz]
    · subst hr
      have hflt : imgs.filter (fun i => decide (rt i = rt z)) = [] := by
        rw [List.filter_eq_nil_iff]
        intro i hi
        simp only [decide_eq_true_eq]
        intro hc
        exact hnm ((hkeys (rt z)).mpr (List.mem_map.mpr ⟨i, hi, hc⟩))
      have hfz : ([z].filter (fun i => decide (rt i = rt z))) = [z] := by
        simp
      rw [hflt, hfz, List.nil_append]
      exact hxs

theorem buildClusters_good (rt : String → String) (imgs : List String) :
    GoodClusters rt imgs (buildClusters rt imgs) := by
  induction imgs using List.reverseRecOn with
  | nil =>
    refine ⟨by simp [buildClusters], by simp [buildClusters], ?_⟩
    intro r xs h
    simp [buildClusters] at h
  | append_singleton imgs z ih =>
    have heq : buildClusters rt (imgs ++ [z]) =
        insertCluster (buildClusters rt imgs) (rt z) z := by
      unfold buildClusters
      rw [List.foldl_append]
      rfl
    rw [heq]
    exact goodClusters_step rt imgs _ z ih

theorem rootOf_eq_iff (nd : List (String × String × ℚ)) (x y : String) :
    rootOf nd x = rootOf nd y ↔ Conn (ndRel nd) x y := by
  obtain ⟨hA, hB, hR, hE⟩ := ufStage2_inv nd
  rw [← sameRoot_iff_root_eq (ufStage2 nd).parent x y _ _
    (rootOf_reaches nd x) (rootOf_reaches nd y)]
  exact hE x y

theorem mem_clusters_iff (nd : List (String × String × ℚ)) (s : Finset String) :
    s ∈ ((group_similar_images nd).map List.toFinset).toFinset ↔
      ∃ x, x ∈ (ufStage2 nd).keys ∧
        ∀ y, (y ∈ s ↔ y ∈ (ufStage2 nd).keys ∧ rootOf nd y = rootOf nd x) := by
  obtain ⟨hA, hB, hR, hE⟩ := ufStage2_inv nd
  rw [group_similar_images_eq,
    clusterFold_snd (rootOf nd) (ufStage2 nd).keys (ufStage2 nd) [] hA hB
      (rootOf_reaches nd)]
  obtain ⟨hnd', hkeys', hval'⟩ :=
    buildClusters_good (rootOf nd) (ufStage2 nd).keys
  constructor
  · intro hs
    rw [List.mem_toFinset, List.mem_map] at hs
    obtain ⟨c, hc, rfl⟩ := hs
    rw [List.mem_map] at hc
    obtain ⟨⟨r, xs⟩, hrxs, rfl⟩ := hc
    have hxs := hval' r xs hrxs
    have hrk : r ∈ (ufStage2 nd).keys.map (rootOf nd) :=
      (hkeys' r).mp (List.mem_map.mpr ⟨(r, xs), hrxs, rfl⟩)
    obtain ⟨x, hx, hrx⟩ := List.mem_map.mp hrk
    refine ⟨x, hx, ?_⟩
    intro y
    show y ∈ xs.toFinset ↔ _
    rw [List.mem_toFinset, hxs, List.mem_filter]
    simp only [decide_eq_true_eq]
    rw [hrx]
  · rintro ⟨x, hx, hs⟩
    have hrk : rootOf nd x ∈
        (buildClusters (rootOf nd) (ufStage2 nd).keys).map Prod.fst :=
      (hkeys' _).mpr (List.mem_map.mpr ⟨x, hx, rfl⟩)
    obtain ⟨⟨r, xs⟩, hrxs, hfst⟩ := List.mem_map.mp hrk
    have hxs := hval' r xs hrxs
    rw [List.mem_toFinset, List.mem_map]
    refine ⟨xs, List.mem_map.mpr ⟨(r, xs), hrxs, rfl⟩, ?_⟩
    apply Finset.ext
    intro y
    rw [hs y, List.mem_toFinset, hxs, List.mem_filter]
    simp only [decide_eq_true_eq]
    rw [show (r : String) = rootOf nd x from hfst]

/-- A cluster, as a set, is exactly a connectivity class of the paths in the
pair list. -/
theorem clusters_char (nd : List (String × String × ℚ)) (s : Finset String) :
    s ∈ ((group_similar_images nd).map List.toFinset).toFinset ↔
      ∃ x, (∃ t ∈ nd, x = t.1 ∨ x = t.2.1) ∧
        ∀ y, (y ∈ s ↔ (∃ t ∈ nd, y = t.1 ∨ y = t.2.1) ∧
          Conn (ndRel nd) y x) := by
  rw [mem_clusters_iff]
  have hk : ∀ x, x ∈ (ufStage2 nd).keys ↔ ∃ t ∈ nd, x = t.1 ∨ x = t.2.1 := by
    intro x
    rw [ufStage2_keys, ufStage1, foldl_makeSet_keys_mem]
    simp
  constructor
  · rintro ⟨x, hx, hs⟩
    refine ⟨x, (hk x).mp hx, ?_⟩
    intro y
    rw [hs y, hk y, rootOf_eq_iff]
  · rintro ⟨x, hx, hs⟩
    refine ⟨x, (hk x).mpr hx, ?_⟩
    intro y
    rw [hs y, hk y, rootOf_eq_iff]

/-- C7: the partition `group_similar_images` returns, compared as a set of
sets, is invariant under permuting the input pair list — in particular
re-running on the same list yields the same partition. -/
theorem C7_order_independent (nd₁ nd₂ : List (String × String × ℚ))
    (h : nd₁.Perm nd₂) :
    ((group_similar_images nd₁).map List.toFinset).toFinset =
      ((group_similar_images nd₂).map List.toFinset).toFinset := by
  apply Finset.ext
  intro s
  rw [clusters_char nd₁ s, clusters_char nd₂ s]
  have hmem : ∀ u : String × String × ℚ, u ∈ nd₁ ↔ u ∈ nd₂ :=
    fun u => h.mem_iff
  have hpaths : ∀ x, (∃ t ∈ nd₁, x = t.1 ∨ x = t.2.1) ↔
      (∃ t ∈ nd₂, x = t.1 ∨ x = t.2.1) := by
    intro x
    constructor
    · rintro ⟨t, ht, hx⟩
      exact ⟨t, (hmem t).mp ht, hx⟩
    · rintro ⟨t, ht, hx⟩
      exact ⟨t, (hmem t).mpr ht, hx⟩
  have hconn : ∀ x y, Conn (ndRel nd₁) x y ↔ Conn (ndRel nd₂) x y := by
    intro x y
    apply conn_congr
    intro u v
    unfold ndRel
    constructor
    · rintro ⟨q, hq⟩
      exact ⟨q, (hmem _).mp hq⟩
    · rintro ⟨q, hq⟩
      exact ⟨q, (hmem _).mpr hq⟩
  constructor
  · rintro ⟨x, hx, hs⟩
    refine ⟨x, (hpaths x).mp hx, ?_⟩
    intro y
    rw [hs y, hpaths y, hconn y x]
  · rintro ⟨x, hx, hs⟩
    refine ⟨x, (hpaths x).mpr hx, ?_⟩
    intro y
    rw [hs y, hpaths y, hconn y x]

theorem C7_order_independent_witness :
    (([(("a" : String), ("b" : String), (1 : ℚ)), ("b", "c", 1)]).Perm
       [(("b" : String), ("c" : String), (1 : ℚ)), ("a", "b", 1)]) ∧
    ((group_similar_images [("a", "b", 1), ("b", "c", 1)]).map
        List.toFinset).toFinset =
      ((group_similar_images [("b", "c", 1), ("a", "b", 1)]).map
        List.toFinset).toFinset :=
  ⟨List.Perm.swap _ _ _,
   C7_order_independent [("a", "b", 1), ("b", "c", 1)]
     [("b", "c", 1), ("a", "b", 1)] (List.Perm.swap _ _ _)⟩
